import Mathlib

/-!
# Verification of the `rdkv` page store (`src/memkv/mem_kv_page.rs`)

Shallow embedding of the `MemKvPage` data structure and its public
operations.  Notes on the embedding:

* The memory-mapped region is modelled as an unbounded byte tape
  `Nat → Nat`; the Rust code writes through `&mut mmap[a..b]` slices,
  modelled by `writeBytes` / `copyWithin`.  Bytes are plain `Nat`s (the
  source only ever stores values < 256).
* Keys are modelled by their UTF-8 byte sequences (`List Nat`): the Rust
  code writes `key.as_bytes()` to the page and decodes with
  `str::from_utf8`, which is a bijection between valid strings and their
  byte encodings, so the byte sequence is the faithful representation.
* `u64`/`usize` fields become `Nat` with explicit `% 2 ^ 64` truncation in
  the big-endian codec (`u64be`), matching `to_be_bytes`/`from_be_bytes`.
* Fallible operations return `Except PageError _`.  Two panics of the
  source are made observable as `Option.none` because claims are about
  them: the `assert_eq!(key, entry_key)` in `read_entry` (via `get`) and
  the `self.index.get_mut(&key).unwrap()` in the re-index walk of
  `defrag`.
* Rust's `BinaryHeap` pops a greatest element with respect to
  `Ord for MemKvPageGap` (which compares `offset` only); `popMax` models
  this on a list representation of the heap's contents.
* The re-index loop of `defrag` (`while let Ok(header) = ...`) has no
  structural bound in the source; it is modelled with a fuel parameter of
  `KV_PAGE_SIZE`, far larger than the number of entries any reachable
  page can hold (each entry occupies at least 18 bytes).
-/

/-- `KV_PAGE_SIZE = 1024 * 1024 * 4`, the fixed page capacity in bytes. -/
def KV_PAGE_SIZE : Nat := 1024 * 1024 * 4

/-- `Value` data type tags (`ValueDataType` in the source). -/
inductive ValueDataType where
  | string
  | integer
  | blob
deriving DecidableEq, Repr

/-- Discriminant byte of a data type (the `as u8` cast of the Rust enum). -/
def ValueDataType.toByte : ValueDataType → Nat
  | .string => 1
  | .integer => 2
  | .blob => 3

/-- `TryFrom<u8> for ValueDataType`: `0x1 | 0x2 | 0x3` decode, all else errors. -/
def byteToDataType (b : Nat) : Option ValueDataType :=
  if b = 1 then some .string
  else if b = 2 then some .integer
  else if b = 3 then some .blob
  else none

/-- The tagged value union (`Value` in the source).  `str` holds the UTF-8
bytes of the text, `int` the `u64` (a `Nat` which the caller keeps below
`2 ^ 64`), `blob` the raw bytes. -/
inductive Value where
  | str (bytes : List Nat)
  | int (n : Nat)
  | blob (bytes : List Nat)
deriving DecidableEq, Repr

/-- Big-endian encoding of a `u64` (`u64::to_be_bytes`). -/
def u64be (n : Nat) : List Nat :=
  [n / 2 ^ 56 % 256, n / 2 ^ 48 % 256, n / 2 ^ 40 % 256, n / 2 ^ 32 % 256,
   n / 2 ^ 24 % 256, n / 2 ^ 16 % 256, n / 2 ^ 8 % 256, n % 256]

/-- Big-endian decoding (`u64::from_be_bytes`). -/
def beToNat (l : List Nat) : Nat := l.foldl (fun a b => a * 256 + b) 0

/-- `Value::get_bytes_length`: byte length of the value payload alone. -/
def Value.get_bytes_length : Value → Nat
  | .str bytes => bytes.length
  | .int _ => 8
  | .blob bytes => bytes.length

/-- `Value::get_data_type`. -/
def Value.get_data_type : Value → ValueDataType
  | .str _ => .string
  | .int _ => .integer
  | .blob _ => .blob

/-- The `value_data` computed in `MemKvPageEntry::new`. -/
def Value.encode : Value → List Nat
  | .str bytes => bytes
  | .int n => u64be n
  | .blob bytes => bytes

/-- A tombstoned gap (`MemKvPageGap`). -/
structure MemKvPageGap where
  offset : Nat
  length : Nat
deriving DecidableEq, Repr

/-- The in-memory `key → offset` index.  `HashMap<String, u64>` is modelled
as an association list over key byte sequences; all operations the source
uses (`contains_key`, `insert`, `remove`, `get`, `get_mut`) are defined
below with `HashMap` semantics. -/
abbrev Index := List (List Nat × Nat)

/-- `HashMap::get` (also the basis of `contains_key`). -/
def lookupIdx : Index → List Nat → Option Nat
  | [], _ => none
  | (k, v) :: rest, key => if k = key then some v else lookupIdx rest key

/-- `HashMap::remove`. -/
def removeIdx : Index → List Nat → Index
  | [], _ => []
  | (k, v) :: rest, key =>
    if k = key then removeIdx rest key else (k, v) :: removeIdx rest key

/-- `HashMap::insert` (replaces any existing binding). -/
def insertIdx (idx : Index) (key : List Nat) (off : Nat) : Index :=
  (key, off) :: removeIdx idx key

/-- `*map.get_mut(&key) = off`: update the binding of an existing key. -/
def setIdx : Index → List Nat → Nat → Index
  | [], _, _ => []
  | (k, v) :: rest, key, off =>
    if k = key then (key, off) :: rest else (k, v) :: setIdx rest key off

/-- Write `data` into the tape at `offset` (the source's `write_to_mmap`,
which also returns `offset + data.len()`; callers below add the length
themselves). -/
def writeBytes (m : Nat → Nat) (off : Nat) (data : List Nat) : Nat → Nat :=
  fun i => if off ≤ i ∧ i < off + data.length then data.getD (i - off) 0 else m i

/-- Read `n` bytes starting at `off`. -/
def readBytes (m : Nat → Nat) (off n : Nat) : List Nat :=
  (List.range n).map fun i => m (off + i)

/-- `mmap.copy_within(srcStart..srcEnd, dst)`. -/
def copyWithin (m : Nat → Nat) (srcStart srcEnd dst : Nat) : Nat → Nat :=
  fun i =>
    if dst ≤ i ∧ i < dst + (srcEnd - srcStart) then m (srcStart + (i - dst)) else m i

/-- Per-entry header (`MemKvPageEntryHeader`): 1 byte `data_type`, 1 byte
`flags`, 8 bytes each for `key_size` and `value_size` (the source stores
`usize`, 8 bytes on 64-bit hosts). -/
structure MemKvPageEntryHeader where
  data_type : ValueDataType
  flags : Nat
  key_size : Nat
  value_size : Nat
  offset : Nat
deriving DecidableEq, Repr

/-- `get_absolute_data_offset`: `offset + 2*size_of::<u8>() + 2*size_of::<usize>()`. -/
def MemKvPageEntryHeader.get_absolute_data_offset (h : MemKvPageEntryHeader) : Nat :=
  h.offset + 18

/-- `get_entry_size`: `key_size + value_size + 2 + 16`. -/
def MemKvPageEntryHeader.get_entry_size (h : MemKvPageEntryHeader) : Nat :=
  h.key_size + h.value_size + 18

/-- The page (`MemKvPage`): mapped byte region, index, gap heap contents
and the append cursor.  The backing file path is irrelevant to the claims
and dropped. -/
structure MemKvPage where
  mmap : Nat → Nat
  index : Index
  deleted_entries : List MemKvPageGap
  offset : Nat

/-- A fresh page as produced by `create_page`: zeroed file, empty index
and heap, cursor at `0`. -/
def freshPage : MemKvPage :=
  { mmap := fun _ => 0, index := [], deleted_entries := [], offset := 0 }

/-- `read_header_from_offset`: decode the fixed 18-byte header.  `none`
models the `InvalidDataTypeError` raised when the `data_type` byte is
outside `{1,2,3}`. -/
def read_header_from_offset (m : Nat → Nat) (off : Nat) : Option MemKvPageEntryHeader :=
  match byteToDataType (m off) with
  | none => none
  | some dt =>
    some { data_type := dt, flags := m (off + 1),
           key_size := beToNat (readBytes m (off + 2) 8),
           value_size := beToNat (readBytes m (off + 10) 8),
           offset := off }

/-- `read_key`: the `key_size` bytes after the header. -/
def read_key (m : Nat → Nat) (h : MemKvPageEntryHeader) : List Nat :=
  readBytes m h.get_absolute_data_offset h.key_size

/-- Decode a value payload according to the header's `data_type`
(the `match` in `read_value`). -/
def decodeValue (dt : ValueDataType) (vb : List Nat) : Value :=
  match dt with
  | .string => .str vb
  | .integer => .int (beToNat vb)
  | .blob => .blob vb

/-- `read_value`: the `value_size` bytes after the key, decoded per type. -/
def read_value (m : Nat → Nat) (h : MemKvPageEntryHeader) : Value :=
  decodeValue h.data_type (readBytes m (h.get_absolute_data_offset + h.key_size) h.value_size)

/-- `write_header`: four sequential `write_to_mmap` calls writing the
`data_type` byte, the `flags` byte, then `key_size` and `value_size`
big-endian. -/
def write_header (m : Nat → Nat) (h : MemKvPageEntryHeader) : Nat → Nat :=
  writeBytes
    (writeBytes
      (writeBytes (writeBytes m h.offset [h.data_type.toByte]) (h.offset + 1) [h.flags])
      (h.offset + 2) (u64be h.key_size))
    (h.offset + 10) (u64be h.value_size)

/-- `write_entry`: header, then key bytes, then value bytes; returns the
new tape together with the index one past the last written byte (the
value `insert` stores into `self.offset`). -/
def write_entry (m : Nat → Nat) (h : MemKvPageEntryHeader) (key valueData : List Nat) :
    (Nat → Nat) × Nat :=
  let m1 := write_header m h
  let m2 := writeBytes m1 h.get_absolute_data_offset key
  let m3 := writeBytes m2 (h.get_absolute_data_offset + key.length) valueData
  (m3, h.get_absolute_data_offset + key.length + valueData.length)

/-- Error kinds of the `errors` module that the page operations raise. -/
inductive PageError where
  | noSpaceLeft
  | keyAlreadyExists
  | keyDoesNotExist
  | entryAlreadyDeleted
  | invalidDataType
deriving DecidableEq, Repr

/-- `MemKvPage::insert`. -/
def MemKvPage.insert (s : MemKvPage) (key : List Nat) (v : Value) :
    Except PageError MemKvPage :=
  if KV_PAGE_SIZE < s.offset + v.get_bytes_length then .error .noSpaceLeft
  else if (lookupIdx s.index key).isSome then .error .keyAlreadyExists
  else
    let h : MemKvPageEntryHeader :=
      { data_type := v.get_data_type, flags := 0,
        key_size := key.length, value_size := v.encode.length, offset := s.offset }
    let w := write_entry s.mmap h key v.encode
    .ok { mmap := w.1, index := insertIdx s.index key s.offset,
          deleted_entries := s.deleted_entries, offset := w.2 }

/-- `MemKvPage::get` (via `read_entry`).  The outer `Option` models the
`assert_eq!(key, entry_key)` in `read_entry`: `none` means the assertion
fires (a panic). -/
def MemKvPage.get (s : MemKvPage) (key : List Nat) : Option (Except PageError Value) :=
  match lookupIdx s.index key with
  | none => some (.error .keyDoesNotExist)
  | some off =>
    match read_header_from_offset s.mmap off with
    | none => some (.error .invalidDataType)
    | some h =>
      if read_key s.mmap h = key then some (.ok (read_value s.mmap h)) else none

/-- `MemKvPage::delete`: tombstone the header in place, drop the key from
the index and push a gap `(offset, get_entry_size)` onto the heap.  The
cursor is untouched. -/
def MemKvPage.delete (s : MemKvPage) (key : List Nat) : Except PageError MemKvPage :=
  match lookupIdx s.index key with
  | none => .error .keyDoesNotExist
  | some off =>
    match read_header_from_offset s.mmap off with
    | none => .error .invalidDataType
    | some h =>
      if h.flags ≠ 0 then .error .entryAlreadyDeleted
      else
        .ok { mmap := write_header s.mmap { h with flags := 1 },
              index := removeIdx s.index key,
              deleted_entries := s.deleted_entries ++ [⟨h.offset, h.get_entry_size⟩],
              offset := s.offset }

/-- `BinaryHeap::pop`: remove and return a greatest element with respect
to `Ord for MemKvPageGap`, which compares by `offset` alone (so Rust's
`BinaryHeap` is a max-heap on gap offsets). -/
def popMax : List MemKvPageGap → Option (MemKvPageGap × List MemKvPageGap)
  | [] => none
  | g :: gs =>
    match popMax gs with
    | none => some (g, [])
    | some (m, rest) => if g.offset < m.offset then some (m, g :: rest) else some (g, gs)

/-- The re-index loop of `defrag`
(`while let Ok(header) = self.read_header_from_offset(...)`), with the
`index.get_mut(&key).unwrap()` panic surfaced as `none`.  `fuel` bounds
the iteration count; it is called with `KV_PAGE_SIZE`, which exceeds the
entry count of any reachable page. -/
def walkLoop (m : Nat → Nat) : Nat → Index → Nat → Option Index
  | 0, idx, _ => some idx
  | fuel + 1, idx, off =>
    match read_header_from_offset m off with
    | none => some idx
    | some h =>
      match lookupIdx idx (read_key m h) with
      | none => none
      | some _ => walkLoop m fuel (setIdx idx (read_key m h) h.offset) (off + h.get_entry_size)

/-- `MemKvPage::defrag`: pop one gap; if it is the trailing entry just
pull the cursor back, otherwise move the trailing region left over the
gap, zero the vacated tail and re-index the moved entries.  `none` models
the `unwrap` panic inside the re-index walk. -/
def MemKvPage.defrag (s : MemKvPage) : Option MemKvPage :=
  match popMax s.deleted_entries with
  | none => some s
  | some (g, rest) =>
    if g.offset + g.length = s.offset then
      some { s with deleted_entries := rest, offset := g.offset }
    else
      let newOff := s.offset - g.length
      let m1 := copyWithin s.mmap (g.offset + g.length) s.offset g.offset
      let m2 := writeBytes m1 newOff (List.replicate g.length 0)
      (walkLoop m2 KV_PAGE_SIZE s.index g.offset).map
        (fun idx => { mmap := m2, index := idx, deleted_entries := rest, offset := newOff })

/-- `MemKvPage::delete_page` (the spec's `clear`): drain the index, reset
the cursor, optionally unlink the file (a no-op in the model).  The gap
heap and the mapped bytes are untouched. -/
def MemKvPage.delete_page (s : MemKvPage) (_delete_file : Bool) : MemKvPage :=
  { s with index := [], offset := 0 }

/-- The public operations of `MemKvPage` (`pub fn`s: `insert`, `get`,
`delete`, `defrag`; `delete_page` is private in the source and treated
separately). -/
inductive Op where
  | ins (key : List Nat) (v : Value)
  | read (key : List Nat)
  | del (key : List Nat)
  | defrag
deriving DecidableEq, Repr

/-- Apply one public operation; `Err` return values leave the page
unchanged (the caller keeps using the page), `none` is a panic. -/
def applyOp (s : MemKvPage) : Op → Option MemKvPage
  | .ins k v => match s.insert k v with
    | .ok s' => some s'
    | .error _ => some s
  | .read k => match s.get k with
    | none => none
    | some _ => some s
  | .del k => match s.delete k with
    | .ok s' => some s'
    | .error _ => some s
  | .defrag => s.defrag

/-- Run a sequence of public operations from a given page. -/
def runFrom (s : MemKvPage) : List Op → Option MemKvPage
  | [] => some s
  | op :: ops =>
    match applyOp s op with
    | none => none
    | some s' => runFrom s' ops

/-- Run a sequence of public operations from a fresh page. -/
def run (ops : List Op) : Option MemKvPage := runFrom freshPage ops

/-- Public operations extended with the spec's `clear`
(`delete_page(delete_file)`), which is private in the source. -/
inductive OpC where
  | base (op : Op)
  | clear (delete_file : Bool)

/-- Apply an extended operation. -/
def applyOpC (s : MemKvPage) : OpC → Option MemKvPage
  | .base op => applyOp s op
  | .clear b => some (s.delete_page b)

/-- Run extended operations from a given page. -/
def runFromC (s : MemKvPage) : List OpC → Option MemKvPage
  | [] => some s
  | op :: ops =>
    match applyOpC s op with
    | none => none
    | some s' => runFromC s' ops

/-- Run extended operations from a fresh page. -/
def runC (ops : List OpC) : Option MemKvPage := runFromC freshPage ops

/-! ## The concrete trace of the source test `test_put_and_get` -/

/-- Key `"albert"` as UTF-8 bytes. -/
def keyAlbert : List Nat := [97, 108, 98, 101, 114, 116]

/-- Key `"peter"` as UTF-8 bytes. -/
def keyPeter : List Nat := [112, 101, 116, 101, 114]

/-- Key `"tom"` as UTF-8 bytes. -/
def keyTom : List Nat := [116, 111, 109]

/-- Key `"dan"` as UTF-8 bytes. -/
def keyDan : List Nat := [100, 97, 110]

/-- `"value"` as UTF-8 bytes. -/
def valValue : List Nat := [118, 97, 108, 117, 101]

/-- `"my third value"` as UTF-8 bytes. -/
def valThird : List Nat := [109, 121, 32, 116, 104, 105, 114, 100, 32, 118, 97, 108, 117, 101]

/-- The 41-byte blob of the source test: the `serde_json` encoding
`{"name":"peter pan","age":20,"phones":[]}` of the `Person` value. -/
def blobDan : List Nat :=
  [123, 34, 110, 97, 109, 101, 34, 58, 34, 112, 101, 116, 101, 114, 32, 112, 97, 110, 34, 44,
   34, 97, 103, 101, 34, 58, 50, 48, 44, 34, 112, 104, 111, 110, 101, 115, 34, 58, 91, 93, 125]

/-- The four inserts of the source test. -/
def testInserts : List Op :=
  [.ins keyAlbert (.str valValue), .ins keyPeter (.int 123), .ins keyTom (.str valThird),
   .ins keyDan (.blob blobDan)]

/-- Inserts followed by the two deletes. -/
def testDeletes : List Op := testInserts ++ [.del keyAlbert, .del keyDan]

/-- Trace up to and including the first `defrag`. -/
def testDefrag1 : List Op := testDeletes ++ [.defrag]

/-- Trace up to and including the second `defrag`. -/
def testDefrag2 : List Op := testDefrag1 ++ [.defrag]

/-- Trace up to and including the third `defrag`. -/
def testDefrag3 : List Op := testDefrag2 ++ [.defrag]

/-- The page after the four inserts and two deletes of the source test. -/
def pageAfterDeletes : MemKvPage := (run testDeletes).getD freshPage

/-! ## Generic lemmas about the heap model -/

/-- `popMax` returns `none` exactly on the empty heap. -/
theorem popMax_eq_none_iff : ∀ l : List MemKvPageGap, popMax l = none ↔ l = []
  | [] => by simp [popMax]
  | g :: gs => by
    unfold popMax
    match h : popMax gs with
    | none => simp
    | some (m, rest) => by_cases hlt : g.offset < m.offset <;> simp [hlt]

/-- `popMax` pops an element of maximal `offset` and returns the rest of
the heap's contents. -/
theorem popMax_spec : ∀ (l : List MemKvPageGap) (g : MemKvPageGap)
    (rest : List MemKvPageGap), popMax l = some (g, rest) →
    l.Perm (g :: rest) ∧ ∀ g' ∈ l, g'.offset ≤ g.offset
  | [], g, rest => by simp [popMax]
  | x :: xs, g, rest => by
    intro h
    unfold popMax at h
    match hxs : popMax xs with
    | none =>
      rw [hxs] at h
      dsimp only at h
      have hnil : xs = [] := (popMax_eq_none_iff xs).mp hxs
      injection h with h'
      injection h' with h1 h2
      subst h1; subst h2; subst hnil
      exact ⟨List.Perm.refl _, by simp⟩
    | some (m, rest') =>
      rw [hxs] at h
      dsimp only at h
      obtain ⟨hperm, hmax⟩ := popMax_spec xs m rest' hxs
      by_cases hlt : x.offset < m.offset
      · rw [if_pos hlt] at h
        injection h with h'
        injection h' with h1 h2
        subst h1; subst h2
        constructor
        · exact ((hperm.cons x).trans (List.Perm.swap _ _ _))
        · intro g' hg'
          rcases List.mem_cons.mp hg' with hx | hmem
          · exact hx ▸ Nat.le_of_lt hlt
          · exact hmax g' hmem
      · rw [if_neg hlt] at h
        injection h with h'
        injection h' with h1 h2
        subst h1; subst h2
        constructor
        · exact List.Perm.refl _
        · intro g' hg'
          rcases List.mem_cons.mp hg' with hx | hmem
          · exact hx ▸ Nat.le_refl _
          · exact Nat.le_trans (hmax g' hmem) (Nat.le_of_not_lt hlt)

/-- Whatever `defrag` does to the page, the resulting heap is exactly the
rest returned by the pop. -/
theorem defrag_heap_eq_rest (s : MemKvPage) (g : MemKvPageGap)
    (rest : List MemKvPageGap) (hpop : popMax s.deleted_entries = some (g, rest)) :
    ∀ s', s.defrag = some s' → s'.deleted_entries = rest := by
  intro s' h
  unfold MemKvPage.defrag at h
  rw [hpop] at h
  dsimp only at h
  split at h
  · injection h with h'
    subst h'
    rfl
  · rw [Option.map_eq_some'] at h
    obtain ⟨idx, hw, hf⟩ := h
    rw [← hf]

/-! ## Claims C1 and C2: heap order and the concrete test trace -/

/-- C1 (counterexample).  In the state of the source test after deleting
`"albert"` and `"dan"`, the heap holds the gaps `(0, 29)` and `(95, 62)`.
The claim says `defrag()` pops and reclaims the gap with the smallest
offset; the code pops the gap `(95, 62)` with the *largest* offset
(Rust's `BinaryHeap` is a max-heap for the `offset`-comparing `Ord`),
reclaims it (the cursor drops to `95`), and leaves the smallest gap
`(0, 29)` in the heap. -/
theorem claim_C1_counterexample :
    pageAfterDeletes.deleted_entries = [⟨0, 29⟩, ⟨95, 62⟩] ∧
    popMax pageAfterDeletes.deleted_entries = some (⟨95, 62⟩, [⟨0, 29⟩]) ∧
    pageAfterDeletes.defrag.map (fun s => (s.offset, s.deleted_entries))
      = some (95, [⟨0, 29⟩]) := by
  decide

/-- C1 (amended).  The gap heap is a *max*-heap over gap offsets (Rust's
`BinaryHeap` with `Ord` comparing `offset`): each `defrag()` call on a
non-empty heap pops the gap with the **largest** offset currently in the
heap and removes exactly it, reclaiming that gap. -/
theorem claim_C1_amended (s : MemKvPage) (hne : s.deleted_entries ≠ []) :
    ∃ g rest, popMax s.deleted_entries = some (g, rest) ∧
      (∀ g' ∈ s.deleted_entries, g'.offset ≤ g.offset) ∧
      s.deleted_entries.Perm (g :: rest) ∧
      ∀ s', s.defrag = some s' → s'.deleted_entries = rest := by
  match hpop : popMax s.deleted_entries with
  | none => exact absurd ((popMax_eq_none_iff _).mp hpop) hne
  | some (g, rest) =>
    obtain ⟨hperm, hmax⟩ := popMax_spec _ _ _ hpop
    exact ⟨g, rest, rfl, hmax, hperm, defrag_heap_eq_rest s g rest hpop⟩

/-- Witness for C1 (amended) at the concrete test state. -/
theorem claim_C1_amended_witness :
    pageAfterDeletes.deleted_entries ≠ [] ∧
    ∃ g rest, popMax pageAfterDeletes.deleted_entries = some (g, rest) ∧
      (∀ g' ∈ pageAfterDeletes.deleted_entries, g'.offset ≤ g.offset) ∧
      pageAfterDeletes.deleted_entries.Perm (g :: rest) ∧
      ∀ s', pageAfterDeletes.defrag = some s' → s'.deleted_entries = rest :=
  ⟨by decide, claim_C1_amended pageAfterDeletes (by decide)⟩

/-- C2 (confirmed).  The model reproduces every offset/index assertion of
the source test `test_put_and_get`: after the four inserts the cursor is
`157` and `index["peter"] = 29`; after deleting `"albert"` and `"dan"`
and one `defrag()` the index still maps `"peter"` to `29` and the cursor
is `95`; after a second `defrag()` the index maps `"peter"` to `0`; a
third `defrag()` leaves the cursor at `66`. -/
theorem claim_C2 :
    (run testInserts).map (fun s => (s.offset, lookupIdx s.index keyPeter))
      = some (157, some 29) ∧
    (run testDefrag1).map (fun s => (lookupIdx s.index keyPeter, s.offset))
      = some (some 29, 95) ∧
    (run testDefrag2).map (fun s => lookupIdx s.index keyPeter) = some (some 0) ∧
    (run testDefrag3).map (fun s => s.offset) = some 66 := by
  decide

/-! ## Claims C3 and C4: the capacity check -/

/-- The result of an accepted `insert` spelled out. -/
theorem insert_ok_spec (s : MemKvPage) (key : List Nat) (v : Value)
    (hspace : s.offset + v.get_bytes_length ≤ KV_PAGE_SIZE)
    (hkey : lookupIdx s.index key = none) :
    s.insert key v = .ok
      { mmap := (write_entry s.mmap
          { data_type := v.get_data_type, flags := 0, key_size := key.length,
            value_size := v.encode.length, offset := s.offset } key v.encode).1,
        index := insertIdx s.index key s.offset,
        deleted_entries := s.deleted_entries,
        offset := s.offset + 18 + key.length + v.encode.length } := by
  unfold MemKvPage.insert
  rw [if_neg (Nat.not_lt.mpr hspace), hkey]
  rfl

/-- Projection of an `insert` result used to state witnesses concretely:
the page of an `Ok` result, a fresh page otherwise. -/
def okState : Except PageError MemKvPage → MemKvPage
  | .ok s => s
  | .error _ => freshPage

/-- The result of an accepted `insert`, with the interesting fields
exposed as equations (existential form keeps large concrete arguments
opaque in proofs). -/
theorem insert_ok_parts (s : MemKvPage) (key : List Nat) (v : Value)
    (hspace : s.offset + v.get_bytes_length ≤ KV_PAGE_SIZE)
    (hkey : lookupIdx s.index key = none) :
    ∃ s', s.insert key v = .ok s' ∧
      s'.offset = s.offset + 18 + key.length + v.encode.length ∧
      s'.index = insertIdx s.index key s.offset ∧
      s'.deleted_entries = s.deleted_entries :=
  ⟨_, insert_ok_spec s key v hspace hkey, rfl, rfl, rfl⟩


/-- C4 (confirmed).  For every state and every `(key, value)`, `insert`
returns `NoSpaceLeft` exactly when `offset + value_byte_length` exceeds
`KV_PAGE_SIZE`; the check counts only the value's bytes
(`Value::get_bytes_length`), never header or key bytes. -/
theorem claim_C4 (s : MemKvPage) (key : List Nat) (v : Value) :
    s.insert key v = .error .noSpaceLeft ↔
      KV_PAGE_SIZE < s.offset + v.get_bytes_length := by
  unfold MemKvPage.insert
  by_cases hspace : KV_PAGE_SIZE < s.offset + v.get_bytes_length
  · rw [if_pos hspace]
    simp [hspace]
  · rw [if_neg hspace]
    by_cases hdup : (lookupIdx s.index key).isSome
    · rw [if_pos hdup]
      simp [hspace]
    · rw [if_neg hdup]
      simp [hspace]

/-! ## Claim C5: the zero-fill property -/

/-- The trailing-gap defrag trace: one entry, deleted, then reclaimed by
the fast path of `defrag` (which only pulls the cursor back). -/
def pageTrailing : MemKvPage :=
  (run [.ins [97] (.int 1), .del [97], .defrag]).getD freshPage

/-- C5 (counterexample).  After `insert "a" (Integer 1)`, `delete "a"`,
`defrag()` the cursor is back at `0`, but byte `0` of the page still
holds the tombstoned entry's `data_type` byte `2` (the trailing-gap path
of `defrag` resets the cursor without zeroing), so the byte at index
`0 ∈ [offset, CAP)` is not `0x00`. -/
theorem claim_C5_counterexample :
    pageTrailing.offset = 0 ∧ pageTrailing.mmap 0 = 2 ∧ 0 < KV_PAGE_SIZE := by
  decide

/-- Everything at or beyond the watermark `w` is zero, and the cursor is
at or below `w`. -/
def zeroBeyond (s : MemKvPage) (w : Nat) : Prop :=
  s.offset ≤ w ∧ ∀ i, w ≤ i → s.mmap i = 0

/-- A write leaves every byte at or beyond its end untouched. -/
theorem writeBytes_eq_of_ge (m : Nat → Nat) (off : Nat) (data : List Nat) (i : Nat)
    (hi : off + data.length ≤ i) : writeBytes m off data i = m i := by
  unfold writeBytes
  rw [if_neg (by omega)]

/-- A copy leaves every byte at or beyond its destination end untouched. -/
theorem copyWithin_eq_of_ge (m : Nat → Nat) (srcStart srcEnd dst i : Nat)
    (hi : dst + (srcEnd - srcStart) ≤ i) : copyWithin m srcStart srcEnd dst i = m i := by
  unfold copyWithin
  rw [if_neg (by omega)]

/-- `u64be` always produces 8 bytes. -/
theorem u64be_length (n : Nat) : (u64be n).length = 8 := rfl

/-- `write_header` only writes the 18 header bytes. -/
theorem write_header_eq_of_ge (m : Nat → Nat) (hd : MemKvPageEntryHeader) (i : Nat)
    (hi : hd.offset + 18 ≤ i) : write_header m hd i = m i := by
  unfold write_header
  rw [writeBytes_eq_of_ge _ _ _ _ (by rw [u64be_length]; omega),
    writeBytes_eq_of_ge _ _ _ _ (by rw [u64be_length]; omega),
    writeBytes_eq_of_ge _ _ _ _ (by simp; omega),
    writeBytes_eq_of_ge _ _ _ _ (by simp; omega)]

/-- `write_entry` only writes below the returned cursor. -/
theorem write_entry_fst_eq_of_ge (m : Nat → Nat) (hd : MemKvPageEntryHeader)
    (key vd : List Nat) (i : Nat) (hi : (write_entry m hd key vd).2 ≤ i) :
    (write_entry m hd key vd).1 i = m i := by
  have hi' : hd.get_absolute_data_offset + key.length + vd.length ≤ i := hi
  unfold write_entry
  dsimp only
  rw [writeBytes_eq_of_ge _ _ _ _ (by omega),
    writeBytes_eq_of_ge _ _ _ _ (by omega),
    write_header_eq_of_ge _ _ _
      (by unfold MemKvPageEntryHeader.get_absolute_data_offset at hi'; omega)]

/-- The mapped bytes at or beyond the new cursor are untouched by an
accepted insert. -/
theorem insert_ok_mmap (s : MemKvPage) (k : List Nat) (v : Value) (s' : MemKvPage)
    (h : s.insert k v = .ok s') : ∀ i, s'.offset ≤ i → s'.mmap i = s.mmap i := by
  unfold MemKvPage.insert at h
  split at h
  · exact absurd h (by simp)
  · split at h
    · exact absurd h (by simp)
    · injection h with h'
      subst h'
      intro i hi
      exact write_entry_fst_eq_of_ge _ _ _ _ _ hi

/-- An accepted insert preserves the watermark invariant, raising the
watermark to the new cursor if needed. -/
theorem zeroBeyond_insert (s : MemKvPage) (k : List Nat) (v : Value) (w : Nat)
    (hz : zeroBeyond s w) (s' : MemKvPage) (h : s.insert k v = .ok s') :
    zeroBeyond s' (max w s'.offset) :=
  ⟨le_max_right _ _, fun i hi => by
    rw [insert_ok_mmap s k v s' h i (le_trans (le_max_right _ _) hi)]
    exact hz.2 i (le_trans (le_max_left _ _) hi)⟩

/-- `MemKvPage::write_to_mmap` with the map bound made explicit: the
slice `mmap[offset..offset + data.len()]` panics (`none`) when the write
would run past the 4 MiB map; otherwise it writes the bytes and returns
`offset + data.len()` as the source does. -/
def write_to_mmap (m : Nat → Nat) (off : Nat) (data : List Nat) :
    Option ((Nat → Nat) × Nat) :=
  if off + data.length ≤ KV_PAGE_SIZE then
    some (writeBytes m off data, off + data.length)
  else none

/-- `write_header` through the bounds-checked `write_to_mmap`: the four
sequential writes of the `data_type` byte, the `flags` byte and the two
big-endian sizes, each of which can panic at the slice bound. -/
def write_headerChecked (m : Nat → Nat) (hd : MemKvPageEntryHeader) :
    Option (Nat → Nat) :=
  match write_to_mmap m hd.offset [hd.data_type.toByte] with
  | none => none
  | some (m1, i1) =>
    match write_to_mmap m1 i1 [hd.flags] with
    | none => none
    | some (m2, i2) =>
      match write_to_mmap m2 i2 (u64be hd.key_size) with
      | none => none
      | some (m3, i3) =>
        match write_to_mmap m3 i3 (u64be hd.value_size) with
        | none => none
        | some (m4, _) => some m4

/-- `write_entry` through the bounds-checked writes: header, key bytes
at `get_absolute_data_offset`, then value bytes; returns the tape and
the index one past the last written byte. -/
def write_entryChecked (m : Nat → Nat) (hd : MemKvPageEntryHeader)
    (key valueData : List Nat) : Option ((Nat → Nat) × Nat) :=
  match write_headerChecked m hd with
  | none => none
  | some m1 =>
    match write_to_mmap m1 hd.get_absolute_data_offset key with
    | none => none
    | some (m2, i2) => write_to_mmap m2 i2 valueData

/-- `MemKvPage::insert` with the mmap bound of `write_to_mmap` kept: the
outer `Option` is `none` when any slice write runs past `KV_PAGE_SIZE`
(a panic in the source, so no `Ok` is returned there). -/
def MemKvPage.insertChecked (s : MemKvPage) (key : List Nat) (v : Value) :
    Option (Except PageError MemKvPage) :=
  if KV_PAGE_SIZE < s.offset + v.get_bytes_length then some (.error .noSpaceLeft)
  else if (lookupIdx s.index key).isSome then some (.error .keyAlreadyExists)
  else
    let hd : MemKvPageEntryHeader :=
      { data_type := v.get_data_type, flags := 0,
        key_size := key.length, value_size := v.encode.length, offset := s.offset }
    match write_entryChecked s.mmap hd key v.encode with
    | none => none
    | some (m', newOff) =>
      some (.ok { mmap := m', index := insertIdx s.index key s.offset,
                  deleted_entries := s.deleted_entries, offset := newOff })

/-- A successful bounds-checked write is the unbounded write, within the
map. -/
theorem write_to_mmap_spec (m : Nat → Nat) (off : Nat) (data : List Nat)
    (m' : Nat → Nat) (i' : Nat) (h : write_to_mmap m off data = some (m', i')) :
    off + data.length ≤ KV_PAGE_SIZE ∧ m' = writeBytes m off data ∧
    i' = off + data.length := by
  unfold write_to_mmap at h
  split at h
  · next hle =>
    have h2 := Option.some.inj h
    exact ⟨hle, (congrArg Prod.fst h2).symm, (congrArg Prod.snd h2).symm⟩
  · exact absurd h (by simp)

/-- A header write that does not panic stays inside the map and equals
the unbounded `write_header`. -/
theorem write_headerChecked_spec (m : Nat → Nat) (hd : MemKvPageEntryHeader)
    (m' : Nat → Nat) (h : write_headerChecked m hd = some m') :
    hd.offset + 18 ≤ KV_PAGE_SIZE ∧ m' = write_header m hd := by
  unfold write_headerChecked at h
  match h1 : write_to_mmap m hd.offset [hd.data_type.toByte] with
  | none => rw [h1] at h; exact absurd h (by simp)
  | some (m1, i1) =>
    rw [h1] at h
    dsimp only at h
    obtain ⟨hb1, hm1, hi1⟩ := write_to_mmap_spec _ _ _ _ _ h1
    match h2 : write_to_mmap m1 i1 [hd.flags] with
    | none => rw [h2] at h; exact absurd h (by simp)
    | some (m2, i2) =>
      rw [h2] at h
      dsimp only at h
      obtain ⟨hb2, hm2, hi2⟩ := write_to_mmap_spec _ _ _ _ _ h2
      match h3 : write_to_mmap m2 i2 (u64be hd.key_size) with
      | none => rw [h3] at h; exact absurd h (by simp)
      | some (m3, i3) =>
        rw [h3] at h
        dsimp only at h
        obtain ⟨hb3, hm3, hi3⟩ := write_to_mmap_spec _ _ _ _ _ h3
        match h4 : write_to_mmap m3 i3 (u64be hd.value_size) with
        | none => rw [h4] at h; exact absurd h (by simp)
        | some (m4, i4) =>
          rw [h4] at h
          dsimp only at h
          obtain ⟨hb4, hm4, hi4⟩ := write_to_mmap_spec _ _ _ _ _ h4
          have hm' : m' = m4 := (Option.some.inj h).symm
          refine ⟨?_, ?_⟩
          · rw [hi3, hi2, hi1] at hb4
            simp only [List.length_cons, List.length_nil, u64be_length] at hb4
            omega
          · rw [hm', hm4, hm3, hm2, hm1, hi3, hi2, hi1]
            rfl

/-- An entry write that does not panic stays inside the map and equals
the unbounded `write_entry`. -/
theorem write_entryChecked_spec (m : Nat → Nat) (hd : MemKvPageEntryHeader)
    (key valueData : List Nat) (m' : Nat → Nat) (i' : Nat)
    (h : write_entryChecked m hd key valueData = some (m', i')) :
    hd.offset + 18 + key.length + valueData.length ≤ KV_PAGE_SIZE ∧
    m' = (write_entry m hd key valueData).1 ∧
    i' = (write_entry m hd key valueData).2 := by
  unfold write_entryChecked at h
  match hw1 : write_headerChecked m hd with
  | none => rw [hw1] at h; exact absurd h (by simp)
  | some m1 =>
    rw [hw1] at h
    dsimp only at h
    obtain ⟨hb1, hm1⟩ := write_headerChecked_spec m hd m1 hw1
    match hw2 : write_to_mmap m1 hd.get_absolute_data_offset key with
    | none => rw [hw2] at h; exact absurd h (by simp)
    | some (m2, i2) =>
      rw [hw2] at h
      dsimp only at h
      obtain ⟨hb2, hm2, hi2⟩ := write_to_mmap_spec _ _ _ _ _ hw2
      obtain ⟨hb3, hm3, hi3⟩ := write_to_mmap_spec _ _ _ _ _ h
      have hgado : hd.get_absolute_data_offset = hd.offset + 18 := rfl
      refine ⟨?_, ?_, ?_⟩
      · rw [hi2, hgado] at hb3
        omega
      · rw [hm3, hm2, hm1, hi2]
        rfl
      · rw [hi3, hi2]
        rfl

/-- An `insertChecked` that returns `Ok` is an `insert` that returned
`Ok` without any slice write leaving the map: the new cursor is the full
entry end and is within `KV_PAGE_SIZE`. -/
theorem insertChecked_ok (s : MemKvPage) (k : List Nat) (v : Value) (s' : MemKvPage)
    (h : s.insertChecked k v = some (.ok s')) :
    s.insert k v = .ok s' ∧
    s'.offset = s.offset + 18 + k.length + v.encode.length ∧
    s'.offset ≤ KV_PAGE_SIZE := by
  unfold MemKvPage.insertChecked at h
  by_cases hspace : KV_PAGE_SIZE < s.offset + v.get_bytes_length
  · rw [if_pos hspace] at h
    exact absurd (Option.some.inj h) (by simp)
  · rw [if_neg hspace] at h
    by_cases hdup : (lookupIdx s.index k).isSome
    · rw [if_pos hdup] at h
      exact absurd (Option.some.inj h) (by simp)
    · rw [if_neg hdup] at h
      dsimp only at h
      match hwe : write_entryChecked s.mmap
          { data_type := v.get_data_type, flags := 0, key_size := k.length,
            value_size := v.encode.length, offset := s.offset } k v.encode with
      | none =>
        rw [hwe] at h
        exact absurd h (by simp)
      | some (m', newOff) =>
        rw [hwe] at h
        dsimp only at h
        obtain ⟨hbound, hm, hi⟩ := write_entryChecked_spec _ _ _ _ _ _ hwe
        have hrec : ({ mmap := m', index := insertIdx s.index k s.offset,
                       deleted_entries := s.deleted_entries,
                       offset := newOff } : MemKvPage) = s' := by
          injection Option.some.inj h
        refine ⟨?_, ?_, ?_⟩
        · unfold MemKvPage.insert
          rw [if_neg hspace, if_neg hdup, ← hrec, hm, hi]
        · rw [← hrec]
          show newOff = s.offset + 18 + k.length + v.encode.length
          rw [hi]
          rfl
        · rw [← hrec]
          show newOff ≤ KV_PAGE_SIZE
          rw [hi]
          exact hbound

/-- Claim C3: for every insert that is accepted — returns `Ok`, which in
the source means no slice write panicked at the 4 MiB bound — the cursor
after the write is `offset + 18 + key_len + value_len` and satisfies
`cursor ≤ KV_PAGE_SIZE`, and no header, key or value byte is placed at
or past `KV_PAGE_SIZE`. -/
theorem claim_C3 (s : MemKvPage) (key : List Nat) (v : Value) (s' : MemKvPage)
    (h : s.insertChecked key v = some (.ok s')) :
    s'.offset = s.offset + 18 + key.length + v.encode.length ∧
    s'.offset ≤ KV_PAGE_SIZE ∧
    ∀ i, KV_PAGE_SIZE ≤ i → s'.mmap i = s.mmap i := by
  obtain ⟨hins, hoff, hcap⟩ := insertChecked_ok s key v s' h
  exact ⟨hoff, hcap,
    fun i hi => insert_ok_mmap s key v s' hins i (le_trans hcap hi)⟩

def pageC3 : MemKvPage :=
  match freshPage.insertChecked [97] (Value.int 5) with
  | some (.ok s) => s
  | _ => freshPage

/-- Witness for C3: a small accepted insert on a fresh page. -/
theorem claim_C3_witness :
    freshPage.insertChecked [97] (Value.int 5) = some (.ok pageC3) ∧
    (pageC3.offset = freshPage.offset + 18 + [97].length + (Value.int 5).encode.length ∧
     pageC3.offset ≤ KV_PAGE_SIZE ∧
     ∀ i, KV_PAGE_SIZE ≤ i → pageC3.mmap i = freshPage.mmap i) :=
  ⟨rfl, claim_C3 freshPage [97] (Value.int 5) pageC3 rfl⟩

/-- The header decoded at `off` records `off` as its own offset. -/
theorem read_header_offset_eq (m : Nat → Nat) (off : Nat) (hd : MemKvPageEntryHeader)
    (h : read_header_from_offset m off = some hd) : hd.offset = off := by
  unfold read_header_from_offset at h
  split at h
  · exact absurd h (by simp)
  · injection h with h'
    subst h'
    rfl

/-- The result of a successful `delete` spelled out. -/
theorem delete_ok_parts (s : MemKvPage) (k : List Nat) (s' : MemKvPage)
    (h : s.delete k = .ok s') :
    ∃ off hd, lookupIdx s.index k = some off ∧
      read_header_from_offset s.mmap off = some hd ∧ hd.flags = 0 ∧ hd.offset = off ∧
      s'.mmap = write_header s.mmap { hd with flags := 1 } ∧
      s'.index = removeIdx s.index k ∧
      s'.deleted_entries = s.deleted_entries ++ [⟨hd.offset, hd.get_entry_size⟩] ∧
      s'.offset = s.offset := by
  unfold MemKvPage.delete at h
  match hl : lookupIdx s.index k with
  | none => rw [hl] at h; exact absurd h (by simp)
  | some off =>
    rw [hl] at h
    dsimp only at h
    match hh : read_header_from_offset s.mmap off with
    | none => rw [hh] at h; exact absurd h (by simp)
    | some hd =>
      rw [hh] at h
      dsimp only at h
      by_cases hf : hd.flags ≠ 0
      · rw [if_pos hf] at h
        exact absurd h (by simp)
      · rw [if_neg hf] at h
        injection h with h'
        subst h'
        exact ⟨off, hd, rfl, hh, by omega, read_header_offset_eq _ _ _ hh,
          rfl, rfl, rfl, rfl⟩

/-- A successful delete preserves the watermark invariant: it only writes
the 18 tombstoned header bytes. -/
theorem zeroBeyond_delete (s : MemKvPage) (k : List Nat) (w : Nat)
    (hz : zeroBeyond s w) (s' : MemKvPage) (h : s.delete k = .ok s') :
    ∃ w', zeroBeyond s' w' := by
  obtain ⟨off, hd, -, -, -, -, hm, -, -, hoff⟩ := delete_ok_parts s k s' h
  refine ⟨max w (hd.offset + 18), ?_, fun i hi => ?_⟩
  · rw [hoff]
    exact le_trans hz.1 (le_max_left _ _)
  · have hw := write_header_eq_of_ge s.mmap { hd with flags := 1 } i
      (le_trans (le_max_right _ _) hi)
    rw [hm, hw]
    exact hz.2 i (le_trans (le_max_left _ _) hi)

/-- Replicated zeros read back as zero. -/
theorem getD_replicate_zero : ∀ n j : Nat, (List.replicate n 0).getD j 0 = 0
  | 0, _ => rfl
  | _ + 1, 0 => rfl
  | n + 1, j + 1 => getD_replicate_zero n j

/-- `defrag` preserves the watermark invariant. -/
theorem zeroBeyond_defrag (s : MemKvPage) (w : Nat) (hz : zeroBeyond s w)
    (s' : MemKvPage) (h : s.defrag = some s') : ∃ w', zeroBeyond s' w' := by
  unfold MemKvPage.defrag at h
  split at h
  · injection h with h'
    subst h'
    exact ⟨w, hz⟩
  · next g rest hpop =>
    split at h
    · next htail =>
      injection h with h'
      subst h'
      refine ⟨w, ?_, hz.2⟩
      show g.offset ≤ w
      exact le_trans (by omega) hz.1
    · next htail =>
      dsimp only at h
      rw [Option.map_eq_some'] at h
      obtain ⟨idx, hw, hf⟩ := h
      subst hf
      refine ⟨max w s.offset, ?_, fun i hi => ?_⟩
      · exact le_trans (Nat.sub_le _ _) (le_max_right _ _)
      · have hwi : w ≤ i := le_trans (le_max_left _ _) hi
        show writeBytes (copyWithin s.mmap (g.offset + g.length) s.offset g.offset)
          (s.offset - g.length) (List.replicate g.length 0) i = 0
        unfold writeBytes
        split
        · exact getD_replicate_zero _ _
        · unfold copyWithin
          split
          · next hc => exact hz.2 _ (by omega)
          · exact hz.2 i hwi

/-- Every public operation preserves the watermark invariant. -/
theorem zeroBeyond_applyOp (s : MemKvPage) (op : Op) (w : Nat) (hz : zeroBeyond s w)
    (s' : MemKvPage) (h : applyOp s op = some s') : ∃ w', zeroBeyond s' w' := by
  cases op with
  | ins k v =>
    dsimp only [applyOp] at h
    match hi : s.insert k v with
    | .ok t =>
      rw [hi] at h
      injection h with h'
      subst h'
      exact ⟨_, zeroBeyond_insert s k v w hz t hi⟩
    | .error e =>
      rw [hi] at h
      injection h with h'
      subst h'
      exact ⟨w, hz⟩
  | read k =>
    dsimp only [applyOp] at h
    match hg : s.get k with
    | none => rw [hg] at h; exact absurd h (by simp)
    | some r =>
      rw [hg] at h
      injection h with h'
      subst h'
      exact ⟨w, hz⟩
  | del k =>
    dsimp only [applyOp] at h
    match hd : s.delete k with
    | .ok t =>
      rw [hd] at h
      injection h with h'
      subst h'
      exact zeroBeyond_delete s k w hz t hd
    | .error e =>
      rw [hd] at h
      injection h with h'
      subst h'
      exact ⟨w, hz⟩
  | defrag => exact zeroBeyond_defrag s w hz s' h

/-- Every extended operation (public plus `clear`) preserves the
watermark invariant. -/
theorem zeroBeyond_applyOpC (s : MemKvPage) (op : OpC) (w : Nat) (hz : zeroBeyond s w)
    (s' : MemKvPage) (h : applyOpC s op = some s') : ∃ w', zeroBeyond s' w' := by
  cases op with
  | base op => exact zeroBeyond_applyOp s op w hz s' h
  | clear b =>
    injection h with h'
    subst h'
    exact ⟨w, Nat.zero_le w, hz.2⟩

/-- The watermark invariant holds after any run of extended operations. -/
theorem zeroBeyond_runFromC : ∀ (ops : List OpC) (s : MemKvPage) (w : Nat),
    zeroBeyond s w → ∀ s', runFromC s ops = some s' → ∃ w', zeroBeyond s' w'
  | [], s, w, hz, s', h => by
    injection h with h'
    subst h'
    exact ⟨w, hz⟩
  | op :: ops, s, w, hz, s', h => by
    unfold runFromC at h
    match ha : applyOpC s op with
    | none => rw [ha] at h; exact absurd h (by simp)
    | some t =>
      rw [ha] at h
      obtain ⟨w', hz'⟩ := zeroBeyond_applyOpC s op w hz t ha
      exact zeroBeyond_runFromC ops t w' hz' s' h

/-- C5 (amended).  After any sequence of operations (`insert`, `get`,
`delete`, `defrag`, `clear`) from a fresh page there is a high-water mark
`w ≥ offset` such that every mapped byte at an index `≥ w` is `0x00`.
Bytes between `offset` and `w` may be non-zero residue: the trailing-gap
path of `defrag` and `clear` pull the cursor back without zeroing (see
the counterexample), so the claim's range `[offset, CAP)` is too wide. -/
theorem claim_C5_amended (ops : List OpC) (s : MemKvPage) (h : runC ops = some s) :
    ∃ w, s.offset ≤ w ∧ ∀ i, w ≤ i → s.mmap i = 0 := by
  obtain ⟨w, hz⟩ := zeroBeyond_runFromC ops freshPage 0
    ⟨Nat.le_refl 0, fun i _ => rfl⟩ s h
  exact ⟨w, hz.1, hz.2⟩

/-- The trailing-defrag trace as extended operations. -/
def trailingTraceC : List OpC :=
  [.base (.ins [97] (.int 1)), .base (.del [97]), .base .defrag]

/-- The page reached by `trailingTraceC`. -/
def pageTrailingC : MemKvPage := (runC trailingTraceC).getD freshPage

/-- Witness for C5 (amended) at the trailing-defrag trace. -/
theorem claim_C5_amended_witness :
    ∃ w, pageTrailingC.offset ≤ w ∧ ∀ i, w ≤ i → pageTrailingC.mmap i = 0 :=
  claim_C5_amended trailingTraceC pageTrailingC rfl

/-! ## Claim C6: `clear` -/

/-- Insert `"a"`, delete it, then `clear(false)`: the gap `(0, 27)` stays
in the heap. -/
def pageCleared : MemKvPage :=
  (runC [.base (.ins [97] (.int 1)), .base (.del [97]), .clear false]).getD freshPage

/-- `slice::copy_within` with its panics kept: the source range must be
well-formed (`srcStart ≤ srcEnd`) and the source and destination ranges
must lie inside the 4 MiB map; otherwise the call panics (`none`). -/
def copy_withinChecked (m : Nat → Nat) (srcStart srcEnd dest : Nat) :
    Option (Nat → Nat) :=
  if srcStart ≤ srcEnd ∧ srcEnd ≤ KV_PAGE_SIZE ∧
      dest + (srcEnd - srcStart) ≤ KV_PAGE_SIZE then
    some (copyWithin m srcStart srcEnd dest)
  else none

/-- `MemKvPage::defrag` with the interior path's panics modeled: in the
source `new_offset = self.offset - next_gap.length` underflows (`u64`
debug arithmetic) when the gap is longer than the cursor, and
`copy_within` rejects an inverted or out-of-map range; each aborts the
process (`none`).  On the walk, `none` is the `index.get_mut(..).unwrap()`
panic as in `defrag`. -/
def MemKvPage.defragChecked (s : MemKvPage) : Option MemKvPage :=
  match popMax s.deleted_entries with
  | none => some s
  | some (g, rest) =>
    if g.offset + g.length = s.offset then
      some { s with deleted_entries := rest, offset := g.offset }
    else
      if s.offset < g.length then none
      else
        match copy_withinChecked s.mmap (g.offset + g.length) s.offset g.offset with
        | none => none
        | some m1 =>
          let newOff := s.offset - g.length
          let m2 := writeBytes m1 newOff (List.replicate g.length 0)
          (walkLoop m2 KV_PAGE_SIZE s.index g.offset).map
            (fun idx => { mmap := m2, index := idx,
                          deleted_entries := rest, offset := newOff })

/-- C6 (counterexample).  After `clear(false)` the gap heap still holds
the tombstone gap `(0, 27)` pushed before the clear — so the heap is not
dropped — and `defrag()` is *not* a no-op: it pops that gap and takes
the interior path with the cursor at `0`, where `offset - gap.length`
underflows and `copy_within` gets the inverted range `27..0`; the source
panics (`none`). -/
theorem claim_C6_counterexample :
    pageCleared.deleted_entries = [⟨0, 27⟩] ∧
    pageCleared.defragChecked = none ∧
    pageCleared.defragChecked ≠ some pageCleared := by
  have hnone : pageCleared.defragChecked = none := rfl
  refine ⟨by decide, hnone, ?_⟩
  rw [hnone]
  exact fun hcontra => Option.noConfusion hcontra

/-- `insert` projected onto the observables that do not depend on the
residual mapped bytes: the error outcome, the new cursor and the new
index. -/
def insertOutcome (r : Except PageError MemKvPage) : Except PageError (Nat × Index) :=
  r.map fun s => (s.offset, s.index)

/-- C6 (amended).  `clear(delete_file)` empties the index and resets the
cursor to `0`, so `get` of any key afterwards fails with
`KeyDoesNotExist`, and a subsequent `insert` accepts/rejects and produces
the same cursor and index as an insert on a fresh page.  However the gap
heap is **retained**, not dropped, and `defrag()` after a clear is not a
no-op when the heap is non-empty (see the counterexample). -/
theorem claim_C6_amended (s : MemKvPage) (b : Bool) (k : List Nat) (v : Value) :
    (s.delete_page b).index = [] ∧ (s.delete_page b).offset = 0 ∧
    (s.delete_page b).deleted_entries = s.deleted_entries ∧
    (s.delete_page b).get k = some (.error .keyDoesNotExist) ∧
    insertOutcome ((s.delete_page b).insert k v) = insertOutcome (freshPage.insert k v) := by
  refine ⟨rfl, rfl, rfl, rfl, ?_⟩
  show insertOutcome (MemKvPage.insert { s with index := [], offset := 0 } k v)
    = insertOutcome (freshPage.insert k v)
  unfold MemKvPage.insert
  dsimp only [freshPage]
  split
  · rfl
  · split
    · rfl
    · rfl

/-! ## The layout invariant: abstract entry records

A reachable page is abstracted by a list of `EntryRec`s tiling the region
`[0, offset)`: each record is one persisted entry (live or tombstoned)
with its key and encoded value payload. -/

/-- One persisted entry, abstractly. -/
structure EntryRec where
  dtype : ValueDataType
  live : Bool
  key : List Nat
  vbytes : List Nat

/-- The `flags` byte of a record: `0x0` live, `0x1` tombstoned. -/
def EntryRec.flagByte (e : EntryRec) : Nat := if e.live then 0 else 1

/-- Total entry size: 18 header bytes plus key and value payloads. -/
def EntryRec.size (e : EntryRec) : Nat := 18 + e.key.length + e.vbytes.length

/-- The byte encoding of a record as laid out by `write_entry`. -/
def EntryRec.enc (e : EntryRec) : List Nat :=
  e.dtype.toByte :: e.flagByte ::
    (u64be e.key.length ++ (u64be e.vbytes.length ++ (e.key ++ e.vbytes)))

/-- Size fields fit in the `u64` header slots. -/
def EntryRec.wfSizes (e : EntryRec) : Prop :=
  e.key.length < 2 ^ 64 ∧ e.vbytes.length < 2 ^ 64

theorem EntryRec.enc_length (e : EntryRec) : e.enc.length = e.size := by
  simp [EntryRec.enc, EntryRec.size, u64be]
  omega

theorem EntryRec.size_ge (e : EntryRec) : 18 ≤ e.size := by
  unfold EntryRec.size
  omega

/-- `l` is stored byte for byte at offset `off`. -/
def bytesAt (m : Nat → Nat) (off : Nat) (l : List Nat) : Prop :=
  ∀ j, j < l.length → m (off + j) = l.getD j 0

/-- The records tile the region from `a` to `b` without holes. -/
def Tiled (m : Nat → Nat) : Nat → List EntryRec → Nat → Prop
  | a, [], b => a = b
  | a, e :: es, b => bytesAt m a e.enc ∧ Tiled m (a + e.size) es b

/-- Enumerate records with their start offsets, beginning at `a`. -/
def recOffsets : Nat → List EntryRec → List (Nat × EntryRec)
  | _, [] => []
  | a, e :: es => (a, e) :: recOffsets (a + e.size) es

/-- Total byte size of a record list. -/
def sumSize (recs : List EntryRec) : Nat := (recs.map EntryRec.size).sum

theorem sumSize_nil : sumSize [] = 0 := rfl

theorem sumSize_cons (e : EntryRec) (es : List EntryRec) :
    sumSize (e :: es) = e.size + sumSize es := by
  simp [sumSize]

theorem sumSize_append (l1 l2 : List EntryRec) :
    sumSize (l1 ++ l2) = sumSize l1 + sumSize l2 := by
  simp [sumSize]

theorem sumSize_eq_zero {recs : List EntryRec} (h : sumSize recs = 0) : recs = [] := by
  cases recs with
  | nil => rfl
  | cons e es =>
    rw [sumSize_cons] at h
    have := e.size_ge
    omega

theorem sumSize_ge (recs : List EntryRec) : 18 * recs.length ≤ sumSize recs := by
  induction recs with
  | nil => simp [sumSize]
  | cons e es ih =>
    rw [sumSize_cons]
    have := e.size_ge
    simp only [List.length_cons]
    omega

theorem Tiled_sum (m : Nat → Nat) :
    ∀ (recs : List EntryRec) (a b : Nat), Tiled m a recs b → b = a + sumSize recs
  | [], a, b, h => by
    have h' : a = b := h
    rw [sumSize_nil]
    omega
  | e :: es, a, b, h => by
    have := Tiled_sum m es (a + e.size) b h.2
    rw [sumSize_cons]
    omega

theorem Tiled_append_iff (m : Nat → Nat) :
    ∀ (l1 l2 : List EntryRec) (a b : Nat),
    Tiled m a (l1 ++ l2) b ↔ Tiled m a l1 (a + sumSize l1) ∧ Tiled m (a + sumSize l1) l2 b
  | [], l2, a, b => by simp [Tiled, sumSize_nil]
  | e :: es, l2, a, b => by
    show (bytesAt m a e.enc ∧ Tiled m (a + e.size) (es ++ l2) b) ↔
      (bytesAt m a e.enc ∧ Tiled m (a + e.size) es (a + sumSize (e :: es))) ∧
      Tiled m (a + sumSize (e :: es)) l2 b
    rw [Tiled_append_iff m es l2 (a + e.size) b, sumSize_cons,
      show a + (e.size + sumSize es) = a + e.size + sumSize es by omega]
    exact and_assoc.symm

theorem recOffsets_append (a : Nat) (l1 l2 : List EntryRec) :
    recOffsets a (l1 ++ l2) = recOffsets a l1 ++ recOffsets (a + sumSize l1) l2 := by
  induction l1 generalizing a with
  | nil => simp [recOffsets, sumSize_nil]
  | cons e es ih =>
    simp only [List.cons_append, recOffsets, sumSize_cons, List.append_eq]
    rw [ih (a + e.size), show a + e.size + sumSize es = a + (e.size + sumSize es) by omega]

theorem mem_recOffsets_ge :
    ∀ (recs : List EntryRec) (a o : Nat) (e : EntryRec),
    (o, e) ∈ recOffsets a recs → a ≤ o
  | [], a, o, e, h => absurd h (by simp [recOffsets])
  | e0 :: es, a, o, e, h => by
    rcases List.mem_cons.mp h with h1 | h1
    · injection h1 with h1 h2
      omega
    · have := mem_recOffsets_ge es (a + e0.size) o e h1
      omega

theorem mem_recOffsets_lt :
    ∀ (recs : List EntryRec) (a o : Nat) (e : EntryRec),
    (o, e) ∈ recOffsets a recs → o + e.size ≤ a + sumSize recs
  | [], a, o, e, h => absurd h (by simp [recOffsets])
  | e0 :: es, a, o, e, h => by
    rw [sumSize_cons]
    rcases List.mem_cons.mp h with h1 | h1
    · injection h1 with h1 h2
      subst h1
      subst h2
      omega
    · have := mem_recOffsets_lt es (a + e0.size) o e h1
      omega

theorem recOffsets_functional :
    ∀ (recs : List EntryRec) (a o : Nat) (e1 e2 : EntryRec),
    (o, e1) ∈ recOffsets a recs → (o, e2) ∈ recOffsets a recs → e1 = e2
  | [], a, o, e1, e2, h1, h2 => absurd h1 (by simp [recOffsets])
  | e0 :: es, a, o, e1, e2, h1, h2 => by
    have hsz := e0.size_ge
    rcases List.mem_cons.mp h1 with g1 | g1 <;> rcases List.mem_cons.mp h2 with g2 | g2
    · injection g1 with ga gb
      injection g2 with gc gd
      rw [gb, gd]
    · injection g1 with ga gb
      have := mem_recOffsets_ge es (a + e0.size) o e2 g2
      omega
    · injection g2 with ga gb
      have := mem_recOffsets_ge es (a + e0.size) o e1 g1
      omega
    · exact recOffsets_functional es (a + e0.size) o e1 e2 g1 g2

theorem recOffsets_mem_split :
    ∀ (recs : List EntryRec) (a o : Nat) (e : EntryRec),
    (o, e) ∈ recOffsets a recs →
    ∃ pre post, recs = pre ++ e :: post ∧ o = a + sumSize pre
  | [], a, o, e, h => absurd h (by simp [recOffsets])
  | e0 :: es, a, o, e, h => by
    rcases List.mem_cons.mp h with h1 | h1
    · injection h1 with ha hb
      subst hb
      exact ⟨[], es, rfl, by rw [sumSize_nil]; omega⟩
    · obtain ⟨pre, post, hsplit, hoff⟩ := recOffsets_mem_split es (a + e0.size) o e h1
      exact ⟨e0 :: pre, post, by rw [hsplit, List.cons_append], by rw [sumSize_cons]; omega⟩

theorem Tiled_mem_bytesAt (m : Nat → Nat) :
    ∀ (recs : List EntryRec) (a b o : Nat) (e : EntryRec),
    Tiled m a recs b → (o, e) ∈ recOffsets a recs → bytesAt m o e.enc
  | [], a, b, o, e, ht, hm => absurd hm (by simp [recOffsets])
  | e0 :: es, a, b, o, e, ht, hm => by
    rcases List.mem_cons.mp hm with h1 | h1
    · injection h1 with ha hb
      subst ha
      subst hb
      exact ht.1
    · exact Tiled_mem_bytesAt m es (a + e0.size) b o e ht.2 h1

theorem recOffsets_map_snd :
    ∀ (recs : List EntryRec) (a : Nat), (recOffsets a recs).map Prod.snd = recs
  | [], _ => rfl
  | e :: es, a => by
    simp only [recOffsets, List.map_cons]
    rw [recOffsets_map_snd es (a + e.size)]

theorem recOffsets_pairwise_lt :
    ∀ (recs : List EntryRec) (a : Nat),
    List.Pairwise (fun p q : Nat × EntryRec => p.1 < q.1) (recOffsets a recs)
  | [], _ => List.Pairwise.nil
  | e :: es, a => by
    refine List.Pairwise.cons (fun q hq => ?_) (recOffsets_pairwise_lt es (a + e.size))
    have h1 := mem_recOffsets_ge es (a + e.size) q.1 q.2 (by simpa using hq)
    have := e.size_ge
    omega

/-! ## Reading records back: `bytesAt` decomposition and the codec -/

theorem bytesAt_cons (m : Nat → Nat) (off : Nat) (x : Nat) (l : List Nat) :
    bytesAt m off (x :: l) ↔ m off = x ∧ bytesAt m (off + 1) l := by
  constructor
  · intro h
    refine ⟨by simpa using h 0 (by simp), fun j hj => ?_⟩
    have := h (j + 1) (by simpa using hj)
    rw [show off + (j + 1) = off + 1 + j by omega] at this
    simpa using this
  · rintro ⟨h1, h2⟩ j hj
    match j with
    | 0 => simpa using h1
    | j + 1 =>
      rw [show off + (j + 1) = off + 1 + j by omega]
      simpa using h2 j (by simpa using hj)

theorem bytesAt_append (m : Nat → Nat) (off : Nat) (l1 l2 : List Nat) :
    bytesAt m off (l1 ++ l2) ↔ bytesAt m off l1 ∧ bytesAt m (off + l1.length) l2 := by
  induction l1 generalizing off with
  | nil => simp [bytesAt]
  | cons x l1 ih =>
    rw [List.cons_append, bytesAt_cons, bytesAt_cons, ih (off + 1), and_assoc,
      List.length_cons, show off + (l1.length + 1) = off + 1 + l1.length by omega]

theorem readBytes_of_bytesAt (m : Nat → Nat) (off : Nat) (l : List Nat)
    (h : bytesAt m off l) : readBytes m off l.length = l := by
  apply List.ext_getElem
  · simp [readBytes]
  · intro i h1 h2
    simp only [readBytes, List.getElem_map, List.getElem_range]
    rw [h i h2, List.getD_eq_getElem]

theorem readBytes_length (m : Nat → Nat) (off n : Nat) : (readBytes m off n).length = n := by
  simp [readBytes]

/-- Decoding the discriminant byte of a data type gives it back. -/
theorem byteToDataType_toByte (dt : ValueDataType) :
    byteToDataType dt.toByte = some dt := by
  cases dt <;> rfl

/-- `from_be_bytes ∘ to_be_bytes` is the identity on `u64` values. -/
theorem beToNat_u64be (n : Nat) (h : n < 2 ^ 64) : beToNat (u64be n) = n := by
  simp only [u64be, beToNat, List.foldl]
  omega

/-- The header a record would decode to at offset `o`. -/
def recHeader (e : EntryRec) (o : Nat) : MemKvPageEntryHeader :=
  { data_type := e.dtype, flags := e.flagByte,
    key_size := e.key.length, value_size := e.vbytes.length, offset := o }

/-- The pieces of a stored record: discriminant and flag bytes and the
four payload slices. -/
theorem bytesAt_enc_parts (m : Nat → Nat) (o : Nat) (e : EntryRec)
    (h : bytesAt m o e.enc) :
    m o = e.dtype.toByte ∧ m (o + 1) = e.flagByte ∧
    bytesAt m (o + 2) (u64be e.key.length) ∧
    bytesAt m (o + 10) (u64be e.vbytes.length) ∧
    bytesAt m (o + 18) e.key ∧
    bytesAt m (o + 18 + e.key.length) e.vbytes := by
  unfold EntryRec.enc at h
  rw [bytesAt_cons, bytesAt_cons, bytesAt_append, bytesAt_append, bytesAt_append] at h
  obtain ⟨h1, h2, h3, h4, h5, h6⟩ := h
  rw [u64be_length] at h4 h5 h6
  rw [u64be_length] at h5 h6
  rw [show o + 1 + 1 = o + 2 by omega] at h3
  rw [show o + 1 + 1 + 8 = o + 10 by omega] at h4
  rw [show o + 1 + 1 + 8 + 8 = o + 18 by omega] at h5 h6
  exact ⟨h1, h2, h3, h4, h5, h6⟩

/-- Decoding the header of a stored record. -/
theorem read_header_of_bytesAt (m : Nat → Nat) (o : Nat) (e : EntryRec)
    (hb : bytesAt m o e.enc) (hwf : e.wfSizes) :
    read_header_from_offset m o = some (recHeader e o) := by
  obtain ⟨h1, h2, h3, h4, -, -⟩ := bytesAt_enc_parts m o e hb
  unfold read_header_from_offset
  rw [h1, byteToDataType_toByte]
  have hk : readBytes m (o + 2) 8 = u64be e.key.length := by
    have := readBytes_of_bytesAt m (o + 2) _ h3
    rwa [u64be_length] at this
  have hv : readBytes m (o + 10) 8 = u64be e.vbytes.length := by
    have := readBytes_of_bytesAt m (o + 10) _ h4
    rwa [u64be_length] at this
  rw [hk, hv, h2, beToNat_u64be _ hwf.1, beToNat_u64be _ hwf.2]
  rfl

/-- Reading the key of a stored record. -/
theorem read_key_of_bytesAt (m : Nat → Nat) (o : Nat) (e : EntryRec)
    (hb : bytesAt m o e.enc) : read_key m (recHeader e o) = e.key := by
  obtain ⟨-, -, -, -, h5, -⟩ := bytesAt_enc_parts m o e hb
  unfold read_key recHeader MemKvPageEntryHeader.get_absolute_data_offset
  exact readBytes_of_bytesAt m (o + 18) e.key h5

/-- Reading the value of a stored record. -/
theorem read_value_of_bytesAt (m : Nat → Nat) (o : Nat) (e : EntryRec)
    (hb : bytesAt m o e.enc) :
    read_value m (recHeader e o) = decodeValue e.dtype e.vbytes := by
  obtain ⟨-, -, -, -, -, h6⟩ := bytesAt_enc_parts m o e hb
  unfold read_value recHeader MemKvPageEntryHeader.get_absolute_data_offset
  rw [readBytes_of_bytesAt m (o + 18 + e.key.length) e.vbytes h6]

/-- The entry size a decoded record header reports. -/
theorem recHeader_entry_size (e : EntryRec) (o : Nat) :
    (recHeader e o).get_entry_size = e.size := by
  unfold recHeader MemKvPageEntryHeader.get_entry_size EntryRec.size
  dsimp only
  omega

/-- Bytes can be replaced by any function agreeing on the region. -/
theorem bytesAt_mono (m m' : Nat → Nat) (off : Nat) (l : List Nat)
    (hagree : ∀ j, j < l.length → m' (off + j) = m (off + j))
    (h : bytesAt m off l) : bytesAt m' off l :=
  fun j hj => (hagree j hj).trans (h j hj)

/-- A tiling survives any modification outside `[a, b)`. -/
theorem Tiled_congr (m m' : Nat → Nat) :
    ∀ (recs : List EntryRec) (a b : Nat),
    (∀ i, a ≤ i → i < b → m' i = m i) → Tiled m a recs b → Tiled m' a recs b
  | [], a, b, hagree, ht => ht
  | e :: es, a, b, hagree, ht => by
    have hsum := Tiled_sum m _ _ _ ht.2
    have hsz := e.size_ge
    refine ⟨bytesAt_mono m m' a e.enc (fun j hj => ?_) ht.1,
      Tiled_congr m m' es (a + e.size) b (fun i h1 h2 => hagree i (by omega) h2) ht.2⟩
    rw [e.enc_length] at hj
    exact hagree (a + j) (by omega) (by omega)

/-- A tiling can be relocated: if the bytes of the destination region
agree with the source region, the same records tile the destination. -/
theorem Tiled_shift (m m' : Nat → Nat) :
    ∀ (recs : List EntryRec) (src dst : Nat),
    Tiled m src recs (src + sumSize recs) →
    (∀ j, j < sumSize recs → m' (dst + j) = m (src + j)) →
    Tiled m' dst recs (dst + sumSize recs)
  | [], src, dst, ht, hagree => by
    show dst = dst + sumSize []
    rw [sumSize_nil]
    omega
  | e :: es, src, dst, ht, hagree => by
    have hsz := e.size_ge
    refine ⟨?_, ?_⟩
    · intro j hj
      have hj' : j < e.size := by rw [← e.enc_length]; exact hj
      rw [hagree j (by rw [sumSize_cons]; omega)]
      exact ht.1 j hj
    · have ht2 : Tiled m (src + e.size) es (src + e.size + sumSize es) := by
        have := ht.2
        rwa [sumSize_cons, show src + (e.size + sumSize es) = src + e.size + sumSize es
          by omega] at this
      have := Tiled_shift m m' es (src + e.size) (dst + e.size) ht2 (fun j hj => by
        have := hagree (e.size + j) (by rw [sumSize_cons]; omega)
        rw [show dst + (e.size + j) = dst + e.size + j by omega,
          show src + (e.size + j) = src + e.size + j by omega] at this
        exact this)
      rwa [sumSize_cons, show dst + (e.size + sumSize es) = dst + e.size + sumSize es
        by omega]

/-! ## Writing records: what the write path stores -/

theorem writeBytes_eq_of_lt (m : Nat → Nat) (off : Nat) (data : List Nat) (i : Nat)
    (hi : i < off) : writeBytes m off data i = m i := by
  unfold writeBytes
  rw [if_neg (by omega)]

theorem bytesAt_writeBytes (m : Nat → Nat) (off : Nat) (l : List Nat) :
    bytesAt (writeBytes m off l) off l := by
  intro j hj
  unfold writeBytes
  rw [if_pos (by omega)]
  congr 1
  omega

/-- The 18 header bytes `write_header` lays out. -/
def headerBytes (h : MemKvPageEntryHeader) : List Nat :=
  h.data_type.toByte :: h.flags :: (u64be h.key_size ++ u64be h.value_size)

theorem headerBytes_length (h : MemKvPageEntryHeader) : (headerBytes h).length = 18 := by
  simp [headerBytes, u64be]

theorem write_header_eq_of_lt (m : Nat → Nat) (h : MemKvPageEntryHeader) (i : Nat)
    (hi : i < h.offset) : write_header m h i = m i := by
  unfold write_header
  rw [writeBytes_eq_of_lt _ _ _ _ (by omega), writeBytes_eq_of_lt _ _ _ _ (by omega),
    writeBytes_eq_of_lt _ _ _ _ (by omega), writeBytes_eq_of_lt _ _ _ _ hi]

theorem write_header_bytesAt (m : Nat → Nat) (h : MemKvPageEntryHeader) :
    bytesAt (write_header m h) h.offset (headerBytes h) := by
  unfold headerBytes
  rw [bytesAt_cons, bytesAt_cons, bytesAt_append]
  refine ⟨?_, ?_, ?_, ?_⟩
  · unfold write_header
    rw [writeBytes_eq_of_lt _ _ _ _ (by omega), writeBytes_eq_of_lt _ _ _ _ (by omega),
      writeBytes_eq_of_lt _ _ _ _ (by omega)]
    simpa using bytesAt_writeBytes m h.offset [h.data_type.toByte] 0 (by simp)
  · unfold write_header
    rw [writeBytes_eq_of_lt _ _ _ _ (by omega), writeBytes_eq_of_lt _ _ _ _ (by omega)]
    simpa using bytesAt_writeBytes (writeBytes m h.offset [h.data_type.toByte])
      (h.offset + 1) [h.flags] 0 (by simp)
  · rw [show h.offset + 1 + 1 = h.offset + 2 by omega]
    intro j hj
    rw [u64be_length] at hj
    unfold write_header
    rw [writeBytes_eq_of_lt _ _ _ _ (by omega)]
    exact bytesAt_writeBytes _ (h.offset + 2) _ j (by rw [u64be_length]; omega)
  · rw [u64be_length, show h.offset + 1 + 1 + 8 = h.offset + 10 by omega]
    unfold write_header
    exact bytesAt_writeBytes _ (h.offset + 10) _

theorem write_entry_fst_eq_of_lt (m : Nat → Nat) (h : MemKvPageEntryHeader)
    (key vd : List Nat) (i : Nat) (hi : i < h.offset) :
    (write_entry m h key vd).1 i = m i := by
  unfold write_entry MemKvPageEntryHeader.get_absolute_data_offset
  dsimp only
  rw [writeBytes_eq_of_lt _ _ _ _ (by omega), writeBytes_eq_of_lt _ _ _ _ (by omega),
    write_header_eq_of_lt _ _ _ hi]

theorem write_entry_bytesAt (m : Nat → Nat) (h : MemKvPageEntryHeader)
    (key vd : List Nat) (hk : h.key_size = key.length) :
    bytesAt (write_entry m h key vd).1 h.offset (headerBytes h ++ (key ++ vd)) := by
  rw [bytesAt_append, bytesAt_append, headerBytes_length]
  refine ⟨?_, ?_, ?_⟩
  · unfold write_entry MemKvPageEntryHeader.get_absolute_data_offset
    dsimp only
    refine bytesAt_mono _ _ _ _ (fun j hj => ?_) (write_header_bytesAt m h)
    rw [headerBytes_length] at hj
    rw [writeBytes_eq_of_lt _ _ _ _ (by omega), writeBytes_eq_of_lt _ _ _ _ (by omega)]
  · unfold write_entry MemKvPageEntryHeader.get_absolute_data_offset
    dsimp only
    refine bytesAt_mono _ _ _ _ (fun j hj => ?_)
      (bytesAt_writeBytes (write_header m h) (h.offset + 18) key)
    exact writeBytes_eq_of_lt _ _ _ _ (by omega)
  · rw [show h.offset + 18 + key.length = h.offset + 18 + key.length by rfl]
    unfold write_entry MemKvPageEntryHeader.get_absolute_data_offset
    dsimp only
    exact bytesAt_writeBytes _ _ vd

/-! ## Index lemmas -/

theorem lookupIdx_cons (k0 : List Nat) (v0 : Nat) (rest : Index) (k : List Nat) :
    lookupIdx ((k0, v0) :: rest) k = if k0 = k then some v0 else lookupIdx rest k := rfl

theorem lookupIdx_removeIdx_self : ∀ (idx : Index) (k : List Nat),
    lookupIdx (removeIdx idx k) k = none
  | [], _ => rfl
  | (k0, v0) :: rest, k => by
    simp only [removeIdx]
    by_cases h : k0 = k
    · rw [if_pos h]
      exact lookupIdx_removeIdx_self rest k
    · rw [if_neg h, lookupIdx_cons, if_neg h]
      exact lookupIdx_removeIdx_self rest k

theorem lookupIdx_removeIdx_ne : ∀ (idx : Index) (k k' : List Nat), k' ≠ k →
    lookupIdx (removeIdx idx k) k' = lookupIdx idx k'
  | [], _, _, _ => rfl
  | (k0, v0) :: rest, k, k', hne => by
    simp only [removeIdx]
    by_cases h : k0 = k
    · rw [if_pos h, lookupIdx_cons,
        if_neg (show ¬ k0 = k' by rw [h]; exact fun e => hne e.symm)]
      exact lookupIdx_removeIdx_ne rest k k' hne
    · rw [if_neg h, lookupIdx_cons, lookupIdx_cons]
      by_cases h2 : k0 = k'
      · rw [if_pos h2, if_pos h2]
      · rw [if_neg h2, if_neg h2]
        exact lookupIdx_removeIdx_ne rest k k' hne

theorem lookupIdx_insertIdx_self (idx : Index) (k : List Nat) (o : Nat) :
    lookupIdx (insertIdx idx k o) k = some o := by
  unfold insertIdx
  rw [lookupIdx_cons, if_pos rfl]

theorem lookupIdx_insertIdx_ne (idx : Index) (k k' : List Nat) (o : Nat) (hne : k' ≠ k) :
    lookupIdx (insertIdx idx k o) k' = lookupIdx idx k' := by
  unfold insertIdx
  rw [lookupIdx_cons, if_neg (fun e => hne e.symm)]
  exact lookupIdx_removeIdx_ne idx k k' hne

theorem lookupIdx_setIdx_self : ∀ (idx : Index) (k : List Nat) (o : Nat),
    (lookupIdx idx k).isSome → lookupIdx (setIdx idx k o) k = some o
  | [], k, o, h => by simp [lookupIdx] at h
  | (k0, v0) :: rest, k, o, h => by
    simp only [setIdx]
    by_cases he : k0 = k
    · rw [if_pos he, lookupIdx_cons, if_pos rfl]
    · rw [if_neg he, lookupIdx_cons, if_neg he]
      rw [lookupIdx_cons, if_neg he] at h
      exact lookupIdx_setIdx_self rest k o h

theorem lookupIdx_setIdx_ne : ∀ (idx : Index) (k k' : List Nat) (o : Nat), k' ≠ k →
    lookupIdx (setIdx idx k o) k' = lookupIdx idx k'
  | [], _, _, _, _ => rfl
  | (k0, v0) :: rest, k, k', o, hne => by
    simp only [setIdx]
    by_cases he : k0 = k
    · rw [if_pos he, lookupIdx_cons, if_neg (fun e : k = k' => hne e.symm),
        lookupIdx_cons, if_neg (show ¬ k0 = k' from fun e => hne (he ▸ e).symm)]
    · rw [if_neg he, lookupIdx_cons, lookupIdx_cons]
      by_cases h2 : k0 = k'
      · rw [if_pos h2, if_pos h2]
      · rw [if_neg h2, if_neg h2]
        exact lookupIdx_setIdx_ne rest k k' o hne

theorem lookupIdx_setIdx_isSome : ∀ (idx : Index) (k k' : List Nat) (o : Nat),
    (lookupIdx (setIdx idx k o) k').isSome = (lookupIdx idx k').isSome
  | [], _, _, _ => rfl
  | (k0, v0) :: rest, k, k', o => by
    simp only [setIdx]
    by_cases he : k0 = k
    · rw [if_pos he, lookupIdx_cons, lookupIdx_cons]
      by_cases h2 : k = k'
      · rw [if_pos h2, if_pos (he.trans h2)]
        rfl
      · rw [if_neg h2, if_neg (show ¬ k0 = k' from fun e => h2 (he ▸ e))]
    · rw [if_neg he, lookupIdx_cons, lookupIdx_cons]
      by_cases h2 : k0 = k'
      · rw [if_pos h2, if_pos h2]
      · rw [if_neg h2, if_neg h2]
        exact lookupIdx_setIdx_isSome rest k k' o

/-! ## The master invariant -/

/-- Invariant of every reachable page: `recs` lists the entries written
in `[0, offset)` in order; the index holds exactly the live entries, the
heap exactly the tombstoned ones (with distinct offsets); all size
fields fit `u64`; the entry count is bounded (the capacity check keeps
the cursor at most `KV_PAGE_SIZE` whenever an insert is accepted). -/
structure PageInv (s : MemKvPage) (recs : List EntryRec) : Prop where
  tiled : Tiled s.mmap 0 recs s.offset
  sizes : ∀ e ∈ recs, e.wfSizes
  idx_rec : ∀ k o, lookupIdx s.index k = some o →
    ∃ e, (o, e) ∈ recOffsets 0 recs ∧ e.live = true ∧ e.key = k
  rec_idx : ∀ o e, (o, e) ∈ recOffsets 0 recs → e.live = true →
    lookupIdx s.index e.key = some o
  heap_rec : ∀ g ∈ s.deleted_entries, ∃ e, (g.offset, e) ∈ recOffsets 0 recs ∧
    e.live = false ∧ g.length = e.size
  rec_heap : ∀ o e, (o, e) ∈ recOffsets 0 recs → e.live = false →
    ∃ g ∈ s.deleted_entries, g.offset = o ∧ g.length = e.size
  heap_nodup : (s.deleted_entries.map MemKvPageGap.offset).Nodup
  count : recs.length ≤ 233017

/-- The fresh page satisfies the invariant with no records. -/
theorem PageInv_fresh : PageInv freshPage [] := by
  refine ⟨rfl, ?_, ?_, ?_, ?_, ?_, ?_, ?_⟩ <;> simp [recOffsets, freshPage, lookupIdx]

/-- Two live records with the same key sit at the same offset and are
equal. -/
theorem PageInv_live_inj (s : MemKvPage) (recs : List EntryRec) (hInv : PageInv s recs)
    (o1 o2 : Nat) (e1 e2 : EntryRec) (h1 : (o1, e1) ∈ recOffsets 0 recs)
    (h2 : (o2, e2) ∈ recOffsets 0 recs) (hl1 : e1.live = true) (hl2 : e2.live = true)
    (hk : e1.key = e2.key) : o1 = o2 ∧ e1 = e2 := by
  have q1 := hInv.rec_idx o1 e1 h1 hl1
  have q2 := hInv.rec_idx o2 e2 h2 hl2
  rw [hk] at q1
  rw [q1] at q2
  injection q2 with q2
  subst q2
  exact ⟨rfl, recOffsets_functional recs 0 o1 e1 e2 h1 h2⟩

/-- Truth of the `u64` bounds the Rust types enforce on an operation's
arguments: keys and payloads fit in `usize`/`u64`. -/
def ValueWF : Value → Prop
  | .str bytes => bytes.length < 2 ^ 64
  | .int n => n < 2 ^ 64
  | .blob bytes => bytes.length < 2 ^ 64

/-- Well-formedness of one operation's arguments. -/
def OpWF : Op → Prop
  | .ins k v => k.length < 2 ^ 64 ∧ ValueWF v
  | _ => True

theorem encode_length_lt (v : Value) (h : ValueWF v) : v.encode.length < 2 ^ 64 := by
  cases v with
  | str bytes => exact h
  | int n => rw [show (Value.int n).encode = u64be n from rfl, u64be_length]; norm_num
  | blob bytes => exact h

/-- The record an accepted `insert key v` appends. -/
def mkRec (k : List Nat) (v : Value) : EntryRec :=
  { dtype := v.get_data_type, live := true, key := k, vbytes := v.encode }

/-- The header `insert` builds for the new entry. -/
def mkHeader (s : MemKvPage) (k : List Nat) (v : Value) : MemKvPageEntryHeader :=
  { data_type := v.get_data_type, flags := 0, key_size := k.length,
    value_size := v.encode.length, offset := s.offset }

theorem mkRec_enc (s : MemKvPage) (k : List Nat) (v : Value) :
    (mkRec k v).enc = headerBytes (mkHeader s k v) ++ (k ++ v.encode) := by
  simp [EntryRec.enc, headerBytes, mkRec, mkHeader, EntryRec.flagByte, List.append_assoc]

theorem mkRec_size (k : List Nat) (v : Value) :
    (mkRec k v).size = 18 + k.length + v.encode.length := rfl

/-- List of `(key, data_type, value_bytes)` of the live records, in
page order. -/
def liveData (recs : List EntryRec) : List (List Nat × ValueDataType × List Nat) :=
  recs.filterMap fun e => if e.live then some (e.key, e.dtype, e.vbytes) else none

theorem liveData_append (l1 l2 : List EntryRec) :
    liveData (l1 ++ l2) = liveData l1 ++ liveData l2 := by
  simp [liveData]

theorem mem_liveData (recs : List EntryRec) (x : List Nat × ValueDataType × List Nat) :
    x ∈ liveData recs ↔
    ∃ e ∈ recs, e.live = true ∧ e.key = x.1 ∧ e.dtype = x.2.1 ∧ e.vbytes = x.2.2 := by
  simp only [liveData, List.mem_filterMap]
  constructor
  · rintro ⟨e, he, hx⟩
    by_cases hl : e.live
    · rw [if_pos hl] at hx
      injection hx with hx
      exact ⟨e, he, by simp [hl], by rw [← hx], by rw [← hx], by rw [← hx]⟩
    · rw [if_neg hl] at hx
      exact absurd hx (by simp)
  · rintro ⟨e, he, hl, h1, h2, h3⟩
    exact ⟨e, he, by rw [if_pos (by simp [hl]), h1, h2, h3]⟩

/-- Insert preservation: an accepted `insert` appends one live record. -/
theorem PageInv_insert (s : MemKvPage) (recs : List EntryRec) (k : List Nat) (v : Value)
    (s' : MemKvPage) (hInv : PageInv s recs) (hk : k.length < 2 ^ 64) (hv : ValueWF v)
    (h : s.insert k v = .ok s') : PageInv s' (recs ++ [mkRec k v]) := by
  have hsum : sumSize recs = s.offset := by
    have := Tiled_sum s.mmap recs 0 s.offset hInv.tiled
    omega
  unfold MemKvPage.insert at h
  split at h
  · exact absurd h (by simp)
  · next hspace =>
    split at h
    · exact absurd h (by simp)
    · next hdup =>
      have hnone : lookupIdx s.index k = none := by
        rcases ho : lookupIdx s.index k with - | o
        · rfl
        · rw [ho] at hdup
          simp at hdup
      injection h with h'
      subst h'
      refine ⟨?_, ?_, ?_, ?_, ?_, ?_, ?_, ?_⟩
      · -- tiled
        show Tiled (write_entry s.mmap (mkHeader s k v) k v.encode).1 0
          (recs ++ [mkRec k v]) (write_entry s.mmap (mkHeader s k v) k v.encode).2
        rw [Tiled_append_iff]
        constructor
        · rw [Nat.zero_add, hsum]
          exact Tiled_congr s.mmap _ recs 0 s.offset
            (fun i h1 h2 => write_entry_fst_eq_of_lt _ _ _ _ _ h2) hInv.tiled
        · rw [Nat.zero_add, hsum]
          show bytesAt _ s.offset (mkRec k v).enc ∧
            Tiled _ (s.offset + (mkRec k v).size) [] _
          constructor
          · rw [mkRec_enc s k v]
            exact write_entry_bytesAt s.mmap (mkHeader s k v) k v.encode rfl
          · show s.offset + (mkRec k v).size
              = (write_entry s.mmap (mkHeader s k v) k v.encode).2
            rw [mkRec_size]
            show s.offset + (18 + k.length + v.encode.length)
              = (mkHeader s k v).get_absolute_data_offset + k.length + v.encode.length
            unfold mkHeader MemKvPageEntryHeader.get_absolute_data_offset
            dsimp only
            omega
      · -- sizes
        intro e he
        rcases List.mem_append.mp he with h1 | h1
        · exact hInv.sizes e h1
        · rw [List.mem_singleton.mp h1]
          exact ⟨hk, encode_length_lt v hv⟩
      · -- idx_rec
        intro k' o hq
        have hq' : lookupIdx (insertIdx s.index k s.offset) k' = some o := hq
        show ∃ e, (o, e) ∈ recOffsets 0 (recs ++ [mkRec k v]) ∧ e.live = true ∧ e.key = k'
        rw [recOffsets_append, Nat.zero_add, hsum]
        by_cases he : k' = k
        · rw [he, lookupIdx_insertIdx_self] at hq'
          injection hq' with hq'
          subst hq'
          refine ⟨mkRec k v, List.mem_append_right _ (by simp [recOffsets]), rfl, ?_⟩
          rw [he]
          rfl
        · rw [lookupIdx_insertIdx_ne _ _ _ _ he] at hq'
          obtain ⟨e, hmem, hl, hkey⟩ := hInv.idx_rec k' o hq'
          exact ⟨e, List.mem_append_left _ hmem, hl, hkey⟩
      · -- rec_idx
        intro o e hmem hl
        rw [recOffsets_append, Nat.zero_add, hsum] at hmem
        show lookupIdx (insertIdx s.index k s.offset) e.key = some o
        rcases List.mem_append.mp hmem with h1 | h1
        · have hq := hInv.rec_idx o e h1 hl
          have hne : e.key ≠ k := by
            intro heq
            rw [heq, hnone] at hq
            exact absurd hq (by simp)
          rw [lookupIdx_insertIdx_ne _ _ _ _ hne]
          exact hq
        · have : (o, e) = (s.offset, mkRec k v) := by simpa [recOffsets] using h1
          injection this with h2 h3
          subst h2
          subst h3
          exact lookupIdx_insertIdx_self _ _ _
      · -- heap_rec
        intro g hg
        obtain ⟨e, hmem, hl, hlen⟩ := hInv.heap_rec g hg
        exact ⟨e, by rw [recOffsets_append]; exact List.mem_append_left _ hmem, hl, hlen⟩
      · -- rec_heap
        intro o e hmem hl
        rw [recOffsets_append, Nat.zero_add, hsum] at hmem
        rcases List.mem_append.mp hmem with h1 | h1
        · exact hInv.rec_heap o e h1 hl
        · have : (o, e) = (s.offset, mkRec k v) := by simpa [recOffsets] using h1
          injection this with h2 h3
          rw [h3] at hl
          exact absurd hl (by simp [mkRec])
      · -- heap_nodup
        exact hInv.heap_nodup
      · -- count
        have h1 := sumSize_ge recs
        have h2 : ¬ KV_PAGE_SIZE < s.offset + v.get_bytes_length := hspace
        rw [KV_PAGE_SIZE] at h2
        simp only [List.length_append, List.length_singleton]
        omega

/-! ## Delete preservation -/

/-- Tombstoning a record. -/
def killRec (e : EntryRec) : EntryRec := { e with live := false }

theorem killRec_enc (e : EntryRec) (o : Nat) :
    (killRec e).enc
      = headerBytes { recHeader e o with flags := 1 } ++ (e.key ++ e.vbytes) := by
  simp [EntryRec.enc, headerBytes, killRec, recHeader, EntryRec.flagByte, List.append_assoc]

theorem killRec_size (e : EntryRec) : (killRec e).size = e.size := rfl

theorem mem_recOffsets_mem (recs : List EntryRec) (a o : Nat) (e : EntryRec)
    (h : (o, e) ∈ recOffsets a recs) : e ∈ recs := by
  have := List.mem_map_of_mem Prod.snd h
  rwa [recOffsets_map_snd] at this

theorem recOffsets_middle (pre post : List EntryRec) (x : EntryRec) (a : Nat) :
    recOffsets a (pre ++ x :: post)
      = recOffsets a pre
        ++ (a + sumSize pre, x) :: recOffsets (a + sumSize pre + x.size) post := by
  rw [recOffsets_append]
  rfl

/-- Delete preservation: a successful `delete k` tombstones exactly the
live record holding `k`, in place. -/
theorem PageInv_delete (s : MemKvPage) (recs : List EntryRec) (k : List Nat)
    (s' : MemKvPage) (hInv : PageInv s recs) (h : s.delete k = .ok s') :
    ∃ pre e post, recs = pre ++ e :: post ∧ e.live = true ∧ e.key = k ∧
      PageInv s' (pre ++ killRec e :: post) := by
  obtain ⟨off, hd, hl, hh, hf, hoffeq, hm, hidx, hheap, hoff⟩ := delete_ok_parts s k s' h
  obtain ⟨e, hmem, hlive, hkey⟩ := hInv.idx_rec k off hl
  have hememrec : e ∈ recs := mem_recOffsets_mem recs 0 off e hmem
  have hb : bytesAt s.mmap off e.enc :=
    Tiled_mem_bytesAt s.mmap recs 0 s.offset off e hInv.tiled hmem
  have hhd : hd = recHeader e off :=
    Option.some.inj (hh.symm.trans (read_header_of_bytesAt s.mmap off e hb
      (hInv.sizes e hememrec)))
  obtain ⟨pre, post, hsplit, hpos⟩ := recOffsets_mem_split recs 0 off e hmem
  rw [Nat.zero_add] at hpos
  have hsz := e.size_ge
  -- the tiling around the record
  have htiles : Tiled s.mmap 0 pre off ∧ bytesAt s.mmap off e.enc ∧
      Tiled s.mmap (off + e.size) post s.offset := by
    have := hInv.tiled
    rw [hsplit, Tiled_append_iff, Nat.zero_add, ← hpos] at this
    exact ⟨this.1, this.2.1, this.2.2⟩
  have hentry : hd.get_entry_size = e.size := by rw [hhd, recHeader_entry_size]
  have hdoff : hd.offset = off := by rw [hhd]; rfl
  -- bytes of the tombstoned header
  have hm18 : ∀ i, off + 18 ≤ i → s'.mmap i = s.mmap i := by
    intro i hi
    rw [hm]
    exact write_header_eq_of_ge _ _ _ (by rw [show ({ hd with flags := 1 } :
      MemKvPageEntryHeader).offset = hd.offset from rfl, hdoff]; exact hi)
  have hmlt : ∀ i, i < off → s'.mmap i = s.mmap i := by
    intro i hi
    rw [hm]
    exact write_header_eq_of_lt _ _ _ (by rw [show ({ hd with flags := 1 } :
      MemKvPageEntryHeader).offset = hd.offset from rfl, hdoff]; exact hi)
  have hbkill : bytesAt s'.mmap off (killRec e).enc := by
    rw [killRec_enc e off, bytesAt_append, headerBytes_length, bytesAt_append]
    obtain ⟨-, -, -, -, h5, h6⟩ := bytesAt_enc_parts s.mmap off e hb
    refine ⟨?_, ?_, ?_⟩
    · have hrec : ({ recHeader e off with flags := 1 } : MemKvPageEntryHeader)
        = { hd with flags := 1 } := by rw [hhd]
      rw [hm, hrec, hdoff]
      exact write_header_bytesAt s.mmap
        { data_type := hd.data_type, flags := 1, key_size := hd.key_size,
          value_size := hd.value_size, offset := off }
    · exact bytesAt_mono _ _ _ _ (fun j hj => hm18 (off + 18 + j) (by omega)) h5
    · exact bytesAt_mono _ _ _ _ (fun j hj => hm18 (off + 18 + e.key.length + j)
        (by omega)) h6
  refine ⟨pre, e, post, hsplit, hlive, hkey, ?_⟩
  have hoffs' : recOffsets 0 (pre ++ killRec e :: post)
      = recOffsets 0 pre ++ (off, killRec e) :: recOffsets (off + e.size) post := by
    rw [recOffsets_middle, Nat.zero_add, hpos, killRec_size]
  have hoffsOld : recOffsets 0 recs
      = recOffsets 0 pre ++ (off, e) :: recOffsets (off + e.size) post := by
    rw [hsplit, recOffsets_middle, Nat.zero_add, hpos]
  -- positions in the pre part sit strictly below `off`
  have hprelt : ∀ o2 e2, (o2, e2) ∈ recOffsets 0 pre → o2 < off := by
    intro o2 e2 hmem2
    have h1 := mem_recOffsets_lt pre 0 o2 e2 hmem2
    have h2 := e2.size_ge
    omega
  have hpostgt : ∀ o2 e2, (o2, e2) ∈ recOffsets (off + e.size) post → off < o2 := by
    intro o2 e2 hmem2
    have h1 := mem_recOffsets_ge post (off + e.size) o2 e2 hmem2
    omega
  refine ⟨?_, ?_, ?_, ?_, ?_, ?_, ?_, ?_⟩
  · -- tiled
    rw [hoff, Tiled_append_iff, Nat.zero_add, ← hpos]
    refine ⟨Tiled_congr s.mmap s'.mmap pre 0 off (fun i h1 h2 => hmlt i h2)
      htiles.1, hbkill, ?_⟩
    rw [killRec_size]
    exact Tiled_congr s.mmap s'.mmap post (off + e.size) s.offset
      (fun i h1 h2 => hm18 i (by omega)) htiles.2.2
  · -- sizes
    intro e2 he2
    rcases List.mem_append.mp he2 with h1 | h1
    · exact hInv.sizes e2 (by rw [hsplit]; exact List.mem_append_left _ h1)
    · rcases List.mem_cons.mp h1 with h2 | h2
      · subst h2
        exact hInv.sizes e hememrec
      · exact hInv.sizes e2
          (by rw [hsplit]; exact List.mem_append_right _ (List.mem_cons_of_mem _ h2))
  · -- idx_rec
    intro k' o hq
    have hq' : lookupIdx (removeIdx s.index k) k' = some o := by rw [← hidx]; exact hq
    have hne : k' ≠ k := by
      intro he
      rw [he, lookupIdx_removeIdx_self] at hq'
      exact absurd hq' (by simp)
    rw [lookupIdx_removeIdx_ne _ _ _ hne] at hq'
    obtain ⟨e2, hmem2, hl2, hk2⟩ := hInv.idx_rec k' o hq'
    have hne2 : e2 ≠ e := fun he => hne (by rw [← hk2, he, hkey])
    rw [hoffsOld] at hmem2
    rw [hoffs']
    rcases List.mem_append.mp hmem2 with h1 | h1
    · exact ⟨e2, List.mem_append_left _ h1, hl2, hk2⟩
    · rcases List.mem_cons.mp h1 with h2 | h2
      · injection h2 with ha hb
        exact absurd hb hne2
      · exact ⟨e2, List.mem_append_right _ (List.mem_cons_of_mem _ h2), hl2, hk2⟩
  · -- rec_idx
    intro o e2 hmem2 hl2
    rw [hoffs'] at hmem2
    have hidx2 : lookupIdx s'.index e2.key = lookupIdx (removeIdx s.index k) e2.key := by
      rw [hidx]
    rcases List.mem_append.mp hmem2 with h1 | h1
    · have hmemOld : (o, e2) ∈ recOffsets 0 recs := by
        rw [hoffsOld]
        exact List.mem_append_left _ h1
      have hlook := hInv.rec_idx o e2 hmemOld hl2
      have hne2 : e2.key ≠ k := by
        intro he
        obtain ⟨hoo, -⟩ := PageInv_live_inj s recs hInv o off e2 e hmemOld hmem hl2
          hlive (by rw [he, hkey])
        have holt := hprelt o e2 h1
        omega
      rw [hidx2, lookupIdx_removeIdx_ne _ _ _ hne2]
      exact hlook
    · rcases List.mem_cons.mp h1 with h2 | h2
      · injection h2 with ha hb
        rw [hb] at hl2
        exact absurd hl2 (by simp [killRec])
      · have hmemOld : (o, e2) ∈ recOffsets 0 recs := by
          rw [hoffsOld]
          exact List.mem_append_right _ (List.mem_cons_of_mem _ h2)
        have hlook := hInv.rec_idx o e2 hmemOld hl2
        have hne2 : e2.key ≠ k := by
          intro he
          obtain ⟨hoo, -⟩ := PageInv_live_inj s recs hInv o off e2 e hmemOld hmem hl2
            hlive (by rw [he, hkey])
          have hogt := hpostgt o e2 h2
          omega
        rw [hidx2, lookupIdx_removeIdx_ne _ _ _ hne2]
        exact hlook
  · -- heap_rec
    intro g hg
    rw [hheap] at hg
    rcases List.mem_append.mp hg with h1 | h1
    · obtain ⟨e3, hmem3, hdead3, hlen3⟩ := hInv.heap_rec g h1
      rw [hoffsOld] at hmem3
      rw [hoffs']
      rcases List.mem_append.mp hmem3 with h2 | h2
      · exact ⟨e3, List.mem_append_left _ h2, hdead3, hlen3⟩
      · rcases List.mem_cons.mp h2 with h3 | h3
        · injection h3 with ha hb
          rw [hb, hlive] at hdead3
          exact absurd hdead3 (by simp)
        · exact ⟨e3, List.mem_append_right _ (List.mem_cons_of_mem _ h3), hdead3, hlen3⟩
    · have hg2 : g = ⟨hd.offset, hd.get_entry_size⟩ := List.mem_singleton.mp h1
      rw [hg2]
      refine ⟨killRec e, ?_, by simp [killRec], ?_⟩
      · rw [hoffs']
        rw [show (⟨hd.offset, hd.get_entry_size⟩ : MemKvPageGap).offset = hd.offset
          from rfl, hdoff]
        exact List.mem_append_right _ (List.mem_cons_self _ _)
      · show hd.get_entry_size = (killRec e).size
        rw [hentry, killRec_size]
  · -- rec_heap
    intro o e2 hmem2 hdead2
    rw [hoffs'] at hmem2
    rcases List.mem_append.mp hmem2 with h1 | h1
    · have hmemOld : (o, e2) ∈ recOffsets 0 recs := by
        rw [hoffsOld]
        exact List.mem_append_left _ h1
      obtain ⟨g, hg, hgo, hglen⟩ := hInv.rec_heap o e2 hmemOld hdead2
      exact ⟨g, by rw [hheap]; exact List.mem_append_left _ hg, hgo, hglen⟩
    · rcases List.mem_cons.mp h1 with h2 | h2
      · injection h2 with ha hb
        refine ⟨⟨hd.offset, hd.get_entry_size⟩, ?_, ?_, ?_⟩
        · rw [hheap]
          exact List.mem_append_right _ (List.mem_singleton_self _)
        · show hd.offset = o
          rw [hdoff, ha]
        · show hd.get_entry_size = e2.size
          rw [hentry, hb, killRec_size]
      · have hmemOld : (o, e2) ∈ recOffsets 0 recs := by
          rw [hoffsOld]
          exact List.mem_append_right _ (List.mem_cons_of_mem _ h2)
        obtain ⟨g, hg, hgo, hglen⟩ := hInv.rec_heap o e2 hmemOld hdead2
        exact ⟨g, by rw [hheap]; exact List.mem_append_left _ hg, hgo, hglen⟩
  · -- heap_nodup
    have hoffnot : ∀ g ∈ s.deleted_entries, g.offset ≠ off := by
      intro g hg he
      obtain ⟨e3, hmem3, hdead3, -⟩ := hInv.heap_rec g hg
      rw [he] at hmem3
      have h4 := recOffsets_functional recs 0 off e3 e hmem3 hmem
      rw [h4, hlive] at hdead3
      exact absurd hdead3 (by simp)
    rw [hheap, List.map_append, List.nodup_append]
    refine ⟨hInv.heap_nodup, by simp, ?_⟩
    intro a ha
    simp only [List.map_cons, List.map_nil, List.mem_singleton]
    intro hb
    obtain ⟨g, hg, hga⟩ := List.mem_map.mp ha
    rw [hb, hdoff] at hga
    exact hoffnot g hg hga
  · -- count
    have := hInv.count
    rw [hsplit] at this
    simp only [List.length_append, List.length_cons] at this ⊢
    omega

/-! ## The re-index walk of `defrag` -/

/-- The index after the re-index walk has decoded the records `recs`
laid out from offset `a`: each key is rebound to its record's offset. -/
def reIndex : Index → Nat → List EntryRec → Index
  | idx, _, [] => idx
  | idx, a, e :: es => reIndex (setIdx idx e.key a) (a + e.size) es

theorem read_header_none (m : Nat → Nat) (a : Nat) (h : byteToDataType (m a) = none) :
    read_header_from_offset m a = none := by
  unfold read_header_from_offset
  rw [h]

/-- The walk over a tiled region decodes exactly its records and stops at
the first undecodable byte; it never hits the `unwrap` panic as long as
every decoded key is present in the index. -/
theorem walkLoop_spec (m : Nat → Nat) :
    ∀ (recs : List EntryRec) (fuel : Nat) (idx : Index) (a b : Nat),
    Tiled m a recs b → (∀ e ∈ recs, e.wfSizes) →
    byteToDataType (m b) = none →
    (∀ e ∈ recs, (lookupIdx idx e.key).isSome = true) →
    recs.length < fuel →
    walkLoop m fuel idx a = some (reIndex idx a recs)
  | [], fuel, idx, a, b, ht, hwf, hstop, hdom, hfuel => by
    match fuel with
    | 0 => omega
    | f + 1 =>
      have hab : a = b := ht
      unfold walkLoop
      rw [read_header_none m a (by rw [hab]; exact hstop)]
      rfl
  | e :: es, fuel, idx, a, b, ht, hwf, hstop, hdom, hfuel => by
    match fuel with
    | 0 => simp at hfuel
    | f + 1 =>
      unfold walkLoop
      rw [read_header_of_bytesAt m a e ht.1 (hwf e (List.mem_cons_self _ _))]
      dsimp only
      rw [read_key_of_bytesAt m a e ht.1]
      have hsome := hdom e (List.mem_cons_self _ _)
      match hle : lookupIdx idx e.key with
      | none => rw [hle] at hsome; simp at hsome
      | some o0 =>
        dsimp only
        rw [recHeader_entry_size, show (recHeader e a).offset = a from rfl]
        have ih := walkLoop_spec m es f (setIdx idx e.key a) (a + e.size) b ht.2
          (fun e' he' => hwf e' (List.mem_cons_of_mem _ he'))
          hstop
          (fun e' he' => by
            rw [lookupIdx_setIdx_isSome]
            exact hdom e' (List.mem_cons_of_mem _ he'))
          (by simp at hfuel; omega)
        rw [ih]
        rfl

theorem reIndex_lookup_not_mem : ∀ (recs : List EntryRec) (idx : Index) (a : Nat)
    (k : List Nat), (∀ e ∈ recs, e.key ≠ k) →
    lookupIdx (reIndex idx a recs) k = lookupIdx idx k
  | [], idx, a, k, h => rfl
  | e :: es, idx, a, k, h => by
    show lookupIdx (reIndex (setIdx idx e.key a) (a + e.size) es) k = lookupIdx idx k
    rw [reIndex_lookup_not_mem es (setIdx idx e.key a) (a + e.size) k
      (fun e' he' => h e' (List.mem_cons_of_mem _ he'))]
    exact lookupIdx_setIdx_ne idx e.key k a
      (fun he => h e (List.mem_cons_self _ _) he.symm)

theorem reIndex_lookup_mem : ∀ (recs : List EntryRec) (idx : Index) (a o : Nat)
    (e : EntryRec), (∀ e' ∈ recs, (lookupIdx idx e'.key).isSome = true) →
    List.Pairwise (fun x y : EntryRec => x.key ≠ y.key) recs →
    (o, e) ∈ recOffsets a recs →
    lookupIdx (reIndex idx a recs) e.key = some o
  | [], idx, a, o, e, hdom, hpw, hmem => absurd hmem (by simp [recOffsets])
  | e0 :: es, idx, a, o, e, hdom, hpw, hmem => by
    show lookupIdx (reIndex (setIdx idx e0.key a) (a + e0.size) es) e.key = some o
    rcases List.mem_cons.mp hmem with h1 | h1
    · injection h1 with ha hb
      rw [ha, hb]
      rw [reIndex_lookup_not_mem es (setIdx idx e0.key a) (a + e0.size) e0.key
        (fun e' he' hk => (List.pairwise_cons.mp hpw).1 e' he' hk.symm)]
      exact lookupIdx_setIdx_self idx e0.key a (hdom e0 (List.mem_cons_self _ _))
    · exact reIndex_lookup_mem es (setIdx idx e0.key a) (a + e0.size) o e
        (fun e' he' => by
          rw [lookupIdx_setIdx_isSome]
          exact hdom e' (List.mem_cons_of_mem _ he'))
        (List.pairwise_cons.mp hpw).2 h1

theorem mem_recOffsets_exists : ∀ (recs : List EntryRec) (e : EntryRec) (a : Nat),
    e ∈ recs → ∃ o, (o, e) ∈ recOffsets a recs
  | [], e, a, h => absurd h (by simp)
  | e0 :: es, e, a, h => by
    rcases List.mem_cons.mp h with h1 | h1
    · subst h1
      exact ⟨a, List.mem_cons_self _ _⟩
    · obtain ⟨o, ho⟩ := mem_recOffsets_exists es e (a + e0.size) h1
      exact ⟨o, List.mem_cons_of_mem _ ho⟩

theorem liveData_cons_live (e : EntryRec) (es : List EntryRec) (h : e.live = true) :
    liveData (e :: es) = (e.key, e.dtype, e.vbytes) :: liveData es := by
  simp [liveData, h]

theorem liveData_cons_dead (e : EntryRec) (es : List EntryRec) (h : e.live = false) :
    liveData (e :: es) = liveData es := by
  simp [liveData, h]

/-! ## Defrag preservation -/

/-- The mapped bytes after the interior-gap move of `defrag`: trailing
region copied left over the gap, vacated tail zeroed. -/
def movedMap (s : MemKvPage) (g : MemKvPageGap) : Nat → Nat :=
  writeBytes (copyWithin s.mmap (g.offset + g.length) s.offset g.offset)
    (s.offset - g.length) (List.replicate g.length 0)

theorem movedMap_low (s : MemKvPage) (g : MemKvPageGap)
    (hle : g.offset ≤ s.offset - g.length) (i : Nat) (hi : i < g.offset) :
    movedMap s g i = s.mmap i := by
  unfold movedMap
  rw [writeBytes_eq_of_lt _ _ _ _ (by omega)]
  unfold copyWithin
  rw [if_neg (by omega)]

theorem movedMap_shift (s : MemKvPage) (g : MemKvPageGap) (T : Nat)
    (hT : g.offset + g.length + T = s.offset) (j : Nat) (hj : j < T) :
    movedMap s g (g.offset + j) = s.mmap (g.offset + g.length + j) := by
  unfold movedMap
  rw [writeBytes_eq_of_lt _ _ _ _ (by omega)]
  unfold copyWithin
  rw [if_pos (by omega)]
  congr 1
  omega

theorem movedMap_zero (s : MemKvPage) (g : MemKvPageGap) (hlen : 0 < g.length) :
    movedMap s g (s.offset - g.length) = 0 := by
  unfold movedMap writeBytes
  rw [if_pos (by rw [List.length_replicate]; omega)]
  exact getD_replicate_zero _ _

/-- Evaluating `defrag` on an interior gap, given the walk's result. -/
theorem defrag_interior_eq (s : MemKvPage) (g : MemKvPageGap)
    (rest : List MemKvPageGap) (hpop : popMax s.deleted_entries = some (g, rest))
    (htail : ¬ g.offset + g.length = s.offset) (idx2 : Index)
    (hwalk : walkLoop (movedMap s g) KV_PAGE_SIZE s.index g.offset = some idx2) :
    s.defrag = some { mmap := movedMap s g, index := idx2,
                      deleted_entries := rest, offset := s.offset - g.length } := by
  unfold movedMap at hwalk
  unfold MemKvPage.defrag
  rw [hpop]
  show (if g.offset + g.length = s.offset then
      (some { mmap := s.mmap, index := s.index, deleted_entries := rest,
              offset := g.offset } : Option MemKvPage)
    else
      (walkLoop (writeBytes (copyWithin s.mmap (g.offset + g.length) s.offset
          g.offset) (s.offset - g.length) (List.replicate g.length 0)) KV_PAGE_SIZE
          s.index g.offset).map
        (fun idx => { mmap := writeBytes (copyWithin s.mmap (g.offset + g.length)
                        s.offset g.offset) (s.offset - g.length)
                        (List.replicate g.length 0),
                      index := idx, deleted_entries := rest,
                      offset := s.offset - g.length }))
    = some { mmap := movedMap s g, index := idx2, deleted_entries := rest,
             offset := s.offset - g.length }
  rw [if_neg htail, hwalk]
  rfl

/-- Evaluating `defrag` on a trailing gap. -/
theorem defrag_trailing_eq (s : MemKvPage) (g : MemKvPageGap)
    (rest : List MemKvPageGap) (hpop : popMax s.deleted_entries = some (g, rest))
    (htail : g.offset + g.length = s.offset) :
    s.defrag = some { s with deleted_entries := rest, offset := g.offset } := by
  unfold MemKvPage.defrag
  rw [hpop]
  show (if g.offset + g.length = s.offset then
      (some { mmap := s.mmap, index := s.index, deleted_entries := rest,
              offset := g.offset } : Option MemKvPage)
    else
      (walkLoop (writeBytes (copyWithin s.mmap (g.offset + g.length) s.offset
          g.offset) (s.offset - g.length) (List.replicate g.length 0)) KV_PAGE_SIZE
          s.index g.offset).map
        (fun idx => { mmap := writeBytes (copyWithin s.mmap (g.offset + g.length)
                        s.offset g.offset) (s.offset - g.length)
                        (List.replicate g.length 0),
                      index := idx, deleted_entries := rest,
                      offset := s.offset - g.length }))
    = some { mmap := s.mmap, index := s.index, deleted_entries := rest,
             offset := g.offset }
  rw [if_pos htail]

/-- Strengthen a pairwise relation using memberships. -/
theorem pairwise_imp_mem {α : Type} {R S : α → α → Prop} :
    ∀ (l : List α), (∀ a b, a ∈ l → b ∈ l → R a b → S a b) → l.Pairwise R → l.Pairwise S
  | [], _, _ => List.Pairwise.nil
  | x :: xs, himp, hp => by
    rw [List.pairwise_cons] at hp ⊢
    refine ⟨fun b hb => himp x b (List.mem_cons_self _ _) (List.mem_cons_of_mem _ hb)
      (hp.1 b hb), ?_⟩
    exact pairwise_imp_mem xs
      (fun a b ha hb => himp a b (List.mem_cons_of_mem _ ha) (List.mem_cons_of_mem _ hb))
      hp.2

/-- Defrag preservation: `defrag` never panics on an invariant-satisfying
page, and removes exactly the popped gap's tombstoned record while
keeping every live record's data. -/
theorem PageInv_defrag (s : MemKvPage) (recs : List EntryRec) (hInv : PageInv s recs) :
    ∃ s', s.defrag = some s' ∧ ∃ recs', PageInv s' recs' ∧
      liveData recs' = liveData recs := by
  match hpop : popMax s.deleted_entries with
  | none =>
    refine ⟨s, ?_, recs, hInv, rfl⟩
    unfold MemKvPage.defrag
    rw [hpop]
  | some (g, rest) =>
    obtain ⟨hperm, hmax⟩ := popMax_spec _ _ _ hpop
    have hgmem : g ∈ s.deleted_entries := hperm.symm.subset (List.mem_cons_self _ _)
    obtain ⟨d, hdmem, hdead, hglen⟩ := hInv.heap_rec g hgmem
    obtain ⟨pre, post, hsplit, hpos⟩ := recOffsets_mem_split recs 0 g.offset d hdmem
    rw [Nat.zero_add] at hpos
    have hdsz := d.size_ge
    have htiles : Tiled s.mmap 0 pre g.offset ∧ bytesAt s.mmap g.offset d.enc ∧
        Tiled s.mmap (g.offset + d.size) post s.offset := by
      have h0 := hInv.tiled
      rw [hsplit, Tiled_append_iff, Nat.zero_add, ← hpos] at h0
      exact ⟨h0.1, h0.2.1, h0.2.2⟩
    have hsums : s.offset = g.offset + d.size + sumSize post := by
      have := Tiled_sum s.mmap post (g.offset + d.size) s.offset htiles.2.2
      omega
    have hmapnodup : (List.map MemKvPageGap.offset (g :: rest)).Nodup :=
      ((hperm.map MemKvPageGap.offset).nodup_iff).mp hInv.heap_nodup
    have hgnotrest : ∀ g2 ∈ rest, g2.offset ≠ g.offset := by
      intro g2 hg2 he
      exact (List.nodup_cons.mp hmapnodup).1
        (he ▸ List.mem_map_of_mem MemKvPageGap.offset hg2)
    have hrestnodup : (List.map MemKvPageGap.offset rest).Nodup :=
      (List.nodup_cons.mp hmapnodup).2
    have hrestmem : ∀ g2 ∈ rest, g2 ∈ s.deleted_entries := fun g2 hg2 =>
      hperm.symm.subset (List.mem_cons_of_mem _ hg2)
    have hmemrest : ∀ g2 ∈ s.deleted_entries, g2.offset ≠ g.offset → g2 ∈ rest := by
      intro g2 hg2 hne
      rcases List.mem_cons.mp (hperm.subset hg2) with h1 | h1
      · exact absurd (by rw [h1]) hne
      · exact h1
    have hoffsOld : recOffsets 0 recs
        = recOffsets 0 pre ++ (g.offset, d) :: recOffsets (g.offset + d.size) post := by
      rw [hsplit, recOffsets_middle, Nat.zero_add, ← hpos]
    have hpostlive : ∀ o2 e2, (o2, e2) ∈ recOffsets (g.offset + d.size) post →
        e2.live = true := by
      intro o2 e2 hmem2
      cases hl2 : e2.live with
      | true => rfl
      | false =>
        have hmemOld : (o2, e2) ∈ recOffsets 0 recs := by
          rw [hoffsOld]
          exact List.mem_append_right _ (List.mem_cons_of_mem _ hmem2)
        obtain ⟨g2, hg2, hg2o, -⟩ := hInv.rec_heap o2 e2 hmemOld hl2
        have h1 := hmax g2 hg2
        have h2 := mem_recOffsets_ge post (g.offset + d.size) o2 e2 hmem2
        omega
    have hprelt : ∀ o2 e2, (o2, e2) ∈ recOffsets 0 pre → o2 < g.offset := by
      intro o2 e2 hmem2
      have h1 := mem_recOffsets_lt pre 0 o2 e2 hmem2
      have h2 := e2.size_ge
      omega
    by_cases htail : g.offset + g.length = s.offset
    · -- trailing gap: just pull the cursor back
      have hpostnil : post = [] := by
        apply sumSize_eq_zero
        omega
      subst hpostnil
      refine ⟨{ s with deleted_entries := rest, offset := g.offset },
        defrag_trailing_eq s g rest hpop htail, pre, ?_, ?_⟩
      · refine ⟨htiles.1, ?_, ?_, ?_, ?_, ?_, hrestnodup, ?_⟩
        · intro e2 he2
          exact hInv.sizes e2 (by rw [hsplit]; exact List.mem_append_left _ he2)
        · intro k o hq
          obtain ⟨e2, hmem2, hl2, hk2⟩ := hInv.idx_rec k o hq
          rw [hoffsOld] at hmem2
          rcases List.mem_append.mp hmem2 with h1 | h1
          · exact ⟨e2, h1, hl2, hk2⟩
          · rcases List.mem_cons.mp h1 with h2 | h2
            · injection h2 with ha hb
              rw [hb, hdead] at hl2
              exact absurd hl2 (by simp)
            · exact absurd h2 (by simp [recOffsets])
        · intro o e2 hmem2 hl2
          exact hInv.rec_idx o e2
            (by rw [hoffsOld]; exact List.mem_append_left _ hmem2) hl2
        · intro g2 hg2
          obtain ⟨e3, hmem3, hdead3, hlen3⟩ := hInv.heap_rec g2 (hrestmem g2 hg2)
          rw [hoffsOld] at hmem3
          rcases List.mem_append.mp hmem3 with h1 | h1
          · exact ⟨e3, h1, hdead3, hlen3⟩
          · rcases List.mem_cons.mp h1 with h2 | h2
            · injection h2 with ha hb
              exact absurd ha (hgnotrest g2 hg2)
            · exact absurd h2 (by simp [recOffsets])
        · intro o e2 hmem2 hdead2
          obtain ⟨g2, hg2, hg2o, hg2len⟩ := hInv.rec_heap o e2
            (by rw [hoffsOld]; exact List.mem_append_left _ hmem2) hdead2
          refine ⟨g2, hmemrest g2 hg2 ?_, hg2o, hg2len⟩
          have := hprelt o e2 hmem2
          omega
        · have := hInv.count
          rw [hsplit] at this
          simp only [List.length_append, List.length_cons] at this
          omega
      · rw [hsplit, liveData_append, liveData_cons_dead d [] hdead]
        simp [liveData]
    · -- interior gap: move, zero, re-index
      have hTpost : g.offset + g.length + sumSize post = s.offset := by omega
      have hnewOffEq : s.offset - g.length = g.offset + sumSize post := by omega
      have hagree : ∀ j, j < sumSize post →
          movedMap s g (g.offset + j) = s.mmap (g.offset + d.size + j) := by
        intro j hj
        rw [movedMap_shift s g (sumSize post) hTpost j hj, hglen]
      have htiled2 : Tiled (movedMap s g) g.offset post (s.offset - g.length) := by
        have hsrc : Tiled s.mmap (g.offset + d.size) post
            ((g.offset + d.size) + sumSize post) := by
          have h0 := htiles.2.2
          rwa [show s.offset = (g.offset + d.size) + sumSize post by omega] at h0
        have h1 := Tiled_shift s.mmap (movedMap s g) post (g.offset + d.size)
          g.offset hsrc hagree
        rwa [← hnewOffEq] at h1
      have hstop : byteToDataType (movedMap s g (s.offset - g.length)) = none := by
        rw [movedMap_zero s g (by omega)]
        rfl
      have hpostmemOld : ∀ o2 e2, (o2, e2) ∈ recOffsets (g.offset + d.size) post →
          (o2, e2) ∈ recOffsets 0 recs := by
        intro o2 e2 h2
        rw [hoffsOld]
        exact List.mem_append_right _ (List.mem_cons_of_mem _ h2)
      have hdom : ∀ e2 ∈ post, (lookupIdx s.index e2.key).isSome = true := by
        intro e2 he2
        obtain ⟨o2, ho2⟩ := mem_recOffsets_exists post e2 (g.offset + d.size) he2
        rw [hInv.rec_idx o2 e2 (hpostmemOld o2 e2 ho2) (hpostlive o2 e2 ho2)]
        rfl
      have hpw : List.Pairwise (fun x y : EntryRec => x.key ≠ y.key) post := by
        have hp2 : List.Pairwise (fun p q : Nat × EntryRec => p.2.key ≠ q.2.key)
            (recOffsets (g.offset + d.size) post) := by
          refine pairwise_imp_mem _ ?_ (recOffsets_pairwise_lt post (g.offset + d.size))
          intro p q hpmem hqmem hlt heq
          obtain ⟨ho, -⟩ := PageInv_live_inj s recs hInv p.1 q.1 p.2 q.2
            (hpostmemOld p.1 p.2 hpmem) (hpostmemOld q.1 q.2 hqmem)
            (hpostlive p.1 p.2 hpmem) (hpostlive q.1 q.2 hqmem) heq
          omega
        rw [← recOffsets_map_snd post (g.offset + d.size)]
        exact List.pairwise_map.mpr hp2
      have hfuel : post.length < KV_PAGE_SIZE := by
        have := hInv.count
        rw [hsplit] at this
        simp only [List.length_append, List.length_cons] at this
        rw [KV_PAGE_SIZE]
        omega
      have hwalk := walkLoop_spec (movedMap s g) post KV_PAGE_SIZE s.index g.offset
        (s.offset - g.length) htiled2
        (fun e2 he2 => hInv.sizes e2 (by
          rw [hsplit]
          exact List.mem_append_right _ (List.mem_cons_of_mem _ he2)))
        hstop hdom hfuel
      have hoffsNew : recOffsets 0 (pre ++ post)
          = recOffsets 0 pre ++ recOffsets g.offset post := by
        rw [recOffsets_append, Nat.zero_add, ← hpos]
      have hpostgtNew : ∀ o2 e2, (o2, e2) ∈ recOffsets g.offset post →
          g.offset ≤ o2 := fun o2 e2 h2 => mem_recOffsets_ge post g.offset o2 e2 h2
      -- correspondence between old and new positions of the moved records
      refine ⟨{ mmap := movedMap s g, index := reIndex s.index g.offset post,
                deleted_entries := rest, offset := s.offset - g.length },
        defrag_interior_eq s g rest hpop htail _ hwalk, pre ++ post, ?_, ?_⟩
      · refine ⟨?_, ?_, ?_, ?_, ?_, ?_, hrestnodup, ?_⟩
        · -- tiled
          show Tiled (movedMap s g) 0 (pre ++ post) (s.offset - g.length)
          rw [Tiled_append_iff, Nat.zero_add, ← hpos]
          refine ⟨Tiled_congr s.mmap (movedMap s g) pre 0 g.offset
            (fun i h1 h2 => movedMap_low s g (by omega) i h2) htiles.1, htiled2⟩
        · intro e2 he2
          rcases List.mem_append.mp he2 with h1 | h1
          · exact hInv.sizes e2 (by rw [hsplit]; exact List.mem_append_left _ h1)
          · exact hInv.sizes e2 (by
              rw [hsplit]
              exact List.mem_append_right _ (List.mem_cons_of_mem _ h1))
        · -- idx_rec
          intro k o hq
          have hq' : lookupIdx (reIndex s.index g.offset post) k = some o := hq
          rw [hoffsNew]
          by_cases hk : ∃ e2 ∈ post, e2.key = k
          · obtain ⟨e2, he2, hk2⟩ := hk
            obtain ⟨o2, ho2⟩ := mem_recOffsets_exists post e2 g.offset he2
            have hl2 : e2.live = true := by
              obtain ⟨o3, ho3⟩ := mem_recOffsets_exists post e2 (g.offset + d.size) he2
              exact hpostlive o3 e2 ho3
            have := reIndex_lookup_mem post s.index g.offset o2 e2 hdom hpw ho2
            rw [hk2] at this
            rw [this] at hq'
            injection hq' with hq'
            subst hq'
            exact ⟨e2, List.mem_append_right _ ho2, hl2, hk2⟩
          · push_neg at hk
            rw [reIndex_lookup_not_mem post s.index g.offset k hk] at hq'
            obtain ⟨e2, hmem2, hl2, hk2⟩ := hInv.idx_rec k o hq'
            rw [hoffsOld] at hmem2
            rcases List.mem_append.mp hmem2 with h1 | h1
            · exact ⟨e2, List.mem_append_left _ h1, hl2, hk2⟩
            · rcases List.mem_cons.mp h1 with h2 | h2
              · injection h2 with ha hb
                rw [hb, hdead] at hl2
                exact absurd hl2 (by simp)
              · exact absurd hk2 (hk e2 (mem_recOffsets_mem post _ o e2 h2))
        · -- rec_idx
          intro o e2 hmem2 hl2
          rw [hoffsNew] at hmem2
          show lookupIdx (reIndex s.index g.offset post) e2.key = some o
          rcases List.mem_append.mp hmem2 with h1 | h1
          · have hnotpost : ∀ e3 ∈ post, e3.key ≠ e2.key := by
              intro e3 he3 heq
              obtain ⟨o3, ho3⟩ := mem_recOffsets_exists post e3 (g.offset + d.size) he3
              obtain ⟨ho, -⟩ := PageInv_live_inj s recs hInv o3 o e3 e2
                (hpostmemOld o3 e3 ho3)
                (by rw [hoffsOld]; exact List.mem_append_left _ h1)
                (hpostlive o3 e3 ho3) hl2 heq
              have h4 := mem_recOffsets_ge post (g.offset + d.size) o3 e3 ho3
              have h5 := hprelt o e2 h1
              omega
            rw [reIndex_lookup_not_mem post s.index g.offset e2.key hnotpost]
            exact hInv.rec_idx o e2
              (by rw [hoffsOld]; exact List.mem_append_left _ h1) hl2
          · exact reIndex_lookup_mem post s.index g.offset o e2 hdom hpw h1
        · -- heap_rec
          intro g2 hg2
          obtain ⟨e3, hmem3, hdead3, hlen3⟩ := hInv.heap_rec g2 (hrestmem g2 hg2)
          rw [hoffsOld] at hmem3
          rw [hoffsNew]
          rcases List.mem_append.mp hmem3 with h1 | h1
          · exact ⟨e3, List.mem_append_left _ h1, hdead3, hlen3⟩
          · rcases List.mem_cons.mp h1 with h2 | h2
            · injection h2 with ha hb
              exact absurd ha (hgnotrest g2 hg2)
            · have hlv := hpostlive g2.offset e3 h2
              rw [hlv] at hdead3
              exact absurd hdead3 (by simp)
        · -- rec_heap
          intro o e2 hmem2 hdead2
          rw [hoffsNew] at hmem2
          rcases List.mem_append.mp hmem2 with h1 | h1
          · obtain ⟨g2, hg2, hg2o, hg2len⟩ := hInv.rec_heap o e2
              (by rw [hoffsOld]; exact List.mem_append_left _ h1) hdead2
            refine ⟨g2, hmemrest g2 hg2 ?_, hg2o, hg2len⟩
            have := hprelt o e2 h1
            omega
          · obtain ⟨o3, ho3⟩ := mem_recOffsets_exists post e2 (g.offset + d.size)
              (mem_recOffsets_mem post g.offset o e2 h1)
            rw [hpostlive o3 e2 ho3] at hdead2
            exact absurd hdead2 (by simp)
        · have := hInv.count
          rw [hsplit] at this
          simp only [List.length_append, List.length_cons] at this ⊢
          omega
      · rw [hsplit, liveData_append, liveData_append, liveData_cons_dead d post hdead]

/-! ## Reachability: the invariant along every run -/

instance (v : Value) : Decidable (ValueWF v) :=
  match v with
  | .str b => (inferInstance : Decidable (b.length < 2 ^ 64))
  | .int n => (inferInstance : Decidable (n < 2 ^ 64))
  | .blob b => (inferInstance : Decidable (b.length < 2 ^ 64))

instance (op : Op) : Decidable (OpWF op) :=
  match op with
  | .ins k v => (inferInstance : Decidable (k.length < 2 ^ 64 ∧ ValueWF v))
  | .read _ => .isTrue trivial
  | .del _ => .isTrue trivial
  | .defrag => .isTrue trivial

/-- Decoding inverts encoding for any `u64`-representable value. -/
theorem decode_encode (v : Value) (hv : ValueWF v) :
    decodeValue v.get_data_type v.encode = v := by
  cases v with
  | str bytes => rfl
  | int n =>
    show Value.int (beToNat (u64be n)) = Value.int n
    rw [beToNat_u64be n hv]
  | blob bytes => rfl

theorem get_none_eval (s : MemKvPage) (k : List Nat)
    (hlook : lookupIdx s.index k = none) :
    s.get k = some (.error .keyDoesNotExist) := by
  unfold MemKvPage.get
  rw [hlook]

theorem get_eval_found (s : MemKvPage) (k : List Nat) (o : Nat)
    (hlook : lookupIdx s.index k = some o) :
    s.get k = (match read_header_from_offset s.mmap o with
      | none => some (.error .invalidDataType)
      | some hd => if read_key s.mmap hd = k
          then some (.ok (read_value s.mmap hd)) else none) := by
  unfold MemKvPage.get
  rw [hlook]

theorem get_eval_header (s : MemKvPage) (k : List Nat) (o : Nat)
    (hd : MemKvPageEntryHeader) (hlook : lookupIdx s.index k = some o)
    (hh : read_header_from_offset s.mmap o = some hd) :
    s.get k = if read_key s.mmap hd = k
        then some (.ok (read_value s.mmap hd)) else none := by
  rw [get_eval_found s k o hlook, hh]

/-- A live `(key, type, bytes)` record is returned by `get`. -/
theorem get_of_live (s : MemKvPage) (recs : List EntryRec) (hInv : PageInv s recs)
    (k : List Nat) (dt : ValueDataType) (vb : List Nat)
    (hmem : (k, dt, vb) ∈ liveData recs) :
    s.get k = some (.ok (decodeValue dt vb)) := by
  rw [mem_liveData] at hmem
  obtain ⟨e, he, hl, hk, hdt, hvb⟩ := hmem
  obtain ⟨o, ho⟩ := mem_recOffsets_exists recs e 0 he
  have hlook := hInv.rec_idx o e ho hl
  rw [hk] at hlook
  have hb := Tiled_mem_bytesAt s.mmap recs 0 s.offset o e hInv.tiled ho
  rw [get_eval_header s k o (recHeader e o) hlook
    (read_header_of_bytesAt s.mmap o e hb (hInv.sizes e he))]
  rw [read_key_of_bytesAt s.mmap o e hb, if_pos hk,
    read_value_of_bytesAt s.mmap o e hb, hdt, hvb]

/-- On an invariant-satisfying page the `assert_eq!` in `read_entry`
never fires: `get` never panics. -/
theorem get_ne_none (s : MemKvPage) (recs : List EntryRec) (hInv : PageInv s recs)
    (k : List Nat) : s.get k ≠ none := by
  match hlook : lookupIdx s.index k with
  | none =>
    rw [get_none_eval s k hlook]
    simp
  | some o =>
    obtain ⟨e, ho, hl, hk⟩ := hInv.idx_rec k o hlook
    have hb := Tiled_mem_bytesAt s.mmap recs 0 s.offset o e hInv.tiled ho
    rw [get_eval_header s k o (recHeader e o) hlook
      (read_header_of_bytesAt s.mmap o e hb (hInv.sizes e (mem_recOffsets_mem recs 0 o e ho)))]
    rw [read_key_of_bytesAt s.mmap o e hb, if_pos hk]
    simp

theorem delete_eval_found (s : MemKvPage) (k : List Nat) (o : Nat)
    (hlook : lookupIdx s.index k = some o) :
    s.delete k = (match read_header_from_offset s.mmap o with
      | none => .error .invalidDataType
      | some hd =>
        if hd.flags ≠ 0 then .error .entryAlreadyDeleted
        else .ok { mmap := write_header s.mmap { hd with flags := 1 },
                   index := removeIdx s.index k,
                   deleted_entries :=
                     s.deleted_entries ++ [⟨hd.offset, hd.get_entry_size⟩],
                   offset := s.offset }) := by
  unfold MemKvPage.delete
  rw [hlook]

theorem delete_eval (s : MemKvPage) (k : List Nat) (o : Nat)
    (hd : MemKvPageEntryHeader) (hlook : lookupIdx s.index k = some o)
    (hh : read_header_from_offset s.mmap o = some hd) (hf : hd.flags = 0) :
    s.delete k = .ok { mmap := write_header s.mmap { hd with flags := 1 },
                       index := removeIdx s.index k,
                       deleted_entries :=
                         s.deleted_entries ++ [⟨hd.offset, hd.get_entry_size⟩],
                       offset := s.offset } := by
  rw [delete_eval_found s k o hlook, hh]
  simp [hf]

theorem delete_none_eval (s : MemKvPage) (k : List Nat)
    (hlook : lookupIdx s.index k = none) :
    s.delete k = .error .keyDoesNotExist := by
  unfold MemKvPage.delete
  rw [hlook]

/-- Which keys an operation can remove from the page. -/
def keepsKey : Op → List Nat → Prop
  | .del kk, k => k ≠ kk
  | _, _ => True

/-- Single-step preservation: every public operation succeeds without a
modeled panic, preserves the invariant, and keeps every live record
whose key it does not delete. -/
theorem PageInv_applyOp (s : MemKvPage) (recs : List EntryRec) (op : Op)
    (hInv : PageInv s recs) (hwf : OpWF op) :
    ∃ s' recs', applyOp s op = some s' ∧ PageInv s' recs' ∧
      ∀ x ∈ liveData recs, keepsKey op x.1 → x ∈ liveData recs' := by
  cases op with
  | ins k v =>
    show ∃ s' recs', (match s.insert k v with
      | .ok t => some t
      | .error _ => some s) = some s' ∧ _
    match hi : s.insert k v with
    | .ok t =>
      refine ⟨t, recs ++ [mkRec k v], rfl, PageInv_insert s recs k v t hInv hwf.1 hwf.2 hi,
        fun x hx _ => ?_⟩
      rw [liveData_append]
      exact List.mem_append_left _ hx
    | .error e => exact ⟨s, recs, rfl, hInv, fun x hx _ => hx⟩
  | read k =>
    show ∃ s' recs', (match s.get k with
      | none => none
      | some _ => some s) = some s' ∧ _
    match hg : s.get k with
    | none => exact absurd hg (get_ne_none s recs hInv k)
    | some r => exact ⟨s, recs, rfl, hInv, fun x hx _ => hx⟩
  | del k =>
    show ∃ s' recs', (match s.delete k with
      | .ok t => some t
      | .error _ => some s) = some s' ∧ _
    match hd : s.delete k with
    | .ok t =>
      obtain ⟨pre, e, post, hsplit, hlive, hkey, hInv'⟩ :=
        PageInv_delete s recs k t hInv hd
      refine ⟨t, pre ++ killRec e :: post, rfl, hInv', fun x hx hkeep => ?_⟩
      have hkill : (killRec e).live = false := rfl
      rw [liveData_append, liveData_cons_dead _ _ hkill]
      rw [hsplit, liveData_append, liveData_cons_live e post hlive] at hx
      rcases List.mem_append.mp hx with h1 | h1
      · exact List.mem_append_left _ h1
      · rcases List.mem_cons.mp h1 with h2 | h2
        · exact absurd (by rw [h2, hkey] : x.1 = k) hkeep
        · exact List.mem_append_right _ h2
    | .error e => exact ⟨s, recs, rfl, hInv, fun x hx _ => hx⟩
  | defrag =>
    obtain ⟨s', hdef, recs', hInv', hlive⟩ := PageInv_defrag s recs hInv
    exact ⟨s', recs', hdef, hInv', fun x hx _ => hlive ▸ hx⟩

/-- Invariant and live data along a whole run. -/
theorem PageInv_runFrom : ∀ (ops : List Op) (s : MemKvPage) (recs : List EntryRec),
    PageInv s recs → (∀ op ∈ ops, OpWF op) →
    ∃ s' recs', runFrom s ops = some s' ∧ PageInv s' recs' ∧
      ∀ x ∈ liveData recs, (∀ kk, Op.del kk ∈ ops → x.1 ≠ kk) → x ∈ liveData recs'
  | [], s, recs, hInv, _ => ⟨s, recs, rfl, hInv, fun x hx _ => hx⟩
  | op :: ops, s, recs, hInv, hwf => by
    obtain ⟨s1, recs1, hstep, hInv1, hkeep1⟩ :=
      PageInv_applyOp s recs op hInv (hwf op (List.mem_cons_self _ _))
    obtain ⟨s2, recs2, hrun2, hInv2, hkeep2⟩ :=
      PageInv_runFrom ops s1 recs1 hInv1 (fun o ho => hwf o (List.mem_cons_of_mem _ ho))
    refine ⟨s2, recs2, ?_, hInv2, ?_⟩
    · unfold runFrom
      rw [hstep]
      exact hrun2
    · intro x hx hdel
      refine hkeep2 x (hkeep1 x hx ?_) (fun kk hkk => hdel kk (List.mem_cons_of_mem _ hkk))
      cases op with
      | del kk => exact hdel kk (List.mem_cons_self _ _)
      | ins k v => trivial
      | read k => trivial
      | defrag => trivial

/-- Every run from a fresh page reaches an invariant-satisfying page. -/
theorem run_inv (ops : List Op) (hwf : ∀ op ∈ ops, OpWF op) :
    ∃ s recs, run ops = some s ∧ PageInv s recs := by
  obtain ⟨s, recs, hrun, hInv, -⟩ :=
    PageInv_runFrom ops freshPage [] PageInv_fresh hwf
  exact ⟨s, recs, hrun, hInv⟩

/-! ## Claims C7 - C10 -/

/-- Claim C7: in every state reachable by the public operations, every
key in the index points at an entry whose stored header decodes and
whose stored key bytes equal that key, so the `assert_eq!` in
`read_entry` never fires and `get` never panics. -/
theorem claim_C7 (ops : List Op) (hwf : ∀ op ∈ ops, OpWF op)
    (s : MemKvPage) (hrun : run ops = some s)
    (k : List Nat) (o : Nat) (hlook : lookupIdx s.index k = some o) :
    (∃ hd, read_header_from_offset s.mmap o = some hd ∧ read_key s.mmap hd = k) ∧
    s.get k ≠ none := by
  obtain ⟨s0, recs, hrun0, hInv⟩ := run_inv ops hwf
  rw [hrun] at hrun0
  have hs : s = s0 := Option.some.inj hrun0
  subst hs
  obtain ⟨e, ho, hl, hk⟩ := hInv.idx_rec k o hlook
  have he : e ∈ recs := mem_recOffsets_mem recs 0 o e ho
  have hb := Tiled_mem_bytesAt s.mmap recs 0 s.offset o e hInv.tiled ho
  refine ⟨⟨recHeader e o, read_header_of_bytesAt s.mmap o e hb (hInv.sizes e he), ?_⟩,
    get_ne_none s recs hInv k⟩
  rw [read_key_of_bytesAt s.mmap o e hb]
  exact hk

def pageC7 : MemKvPage := (run [Op.ins [97] (Value.int 5)]).getD freshPage

/-- Witness for C7 at a concrete one-insert trace. -/
theorem claim_C7_witness :
    (∀ op ∈ [Op.ins [97] (Value.int 5)], OpWF op) ∧
    run [Op.ins [97] (Value.int 5)] = some pageC7 ∧
    lookupIdx pageC7.index [97] = some 0 ∧
    ((∃ hd, read_header_from_offset pageC7.mmap 0 = some hd ∧
        read_key pageC7.mmap hd = [97]) ∧ pageC7.get [97] ≠ none) :=
  ⟨by decide, rfl, by decide,
    claim_C7 [Op.ins [97] (Value.int 5)] (by decide) pageC7 rfl [97] 0 (by decide)⟩

/-- Claim C8: an accepted `insert` of `(k, v)` is returned verbatim by
`get k` after any further operations that never delete `k`. -/
theorem claim_C8 (ops1 : List Op) (hwf1 : ∀ op ∈ ops1, OpWF op)
    (s : MemKvPage) (hrun : run ops1 = some s)
    (k : List Nat) (v : Value) (hk : k.length < 2 ^ 64) (hv : ValueWF v)
    (s1 : MemKvPage) (hins : s.insert k v = .ok s1)
    (ops2 : List Op) (hwf2 : ∀ op ∈ ops2, OpWF op)
    (hnodel : ∀ op ∈ ops2, op ≠ Op.del k)
    (s2 : MemKvPage) (hrun2 : runFrom s1 ops2 = some s2) :
    s2.get k = some (.ok v) := by
  obtain ⟨s0, recs, hrun0, hInv⟩ := run_inv ops1 hwf1
  rw [hrun] at hrun0
  have hs : s = s0 := Option.some.inj hrun0
  subst hs
  have hInv1 := PageInv_insert s recs k v s1 hInv hk hv hins
  have hmem1 : (k, v.get_data_type, v.encode) ∈ liveData (recs ++ [mkRec k v]) := by
    rw [liveData_append, liveData_cons_live (mkRec k v) [] rfl]
    exact List.mem_append_right _ (List.mem_cons_self _ _)
  obtain ⟨s2', recs2, hr2, hInv2, hkeep⟩ := PageInv_runFrom ops2 s1 _ hInv1 hwf2
  rw [hrun2] at hr2
  have hs2 : s2 = s2' := Option.some.inj hr2
  subst hs2
  have hmem2 : (k, v.get_data_type, v.encode) ∈ liveData recs2 := by
    refine hkeep _ hmem1 fun kk hdel => ?_
    show k ≠ kk
    intro hkeq
    exact (hnodel (Op.del kk) hdel) (by rw [hkeq])
  have hget := get_of_live s2 recs2 hInv2 k v.get_data_type v.encode hmem2
  rw [hget, decode_encode v hv]

def pageC8a : MemKvPage := okState (freshPage.insert [97] (Value.int 5))

def opsC8 : List Op := [Op.ins [98] (Value.str [120]), Op.del [98], Op.defrag]

def pageC8b : MemKvPage := (runFrom pageC8a opsC8).getD freshPage

/-- Witness for C8: insert key 97, then insert, delete and defragment
around it with key 98; `get 97` still returns the integer 5. -/
theorem claim_C8_witness :
    (∀ op ∈ ([] : List Op), OpWF op) ∧
    run [] = some freshPage ∧
    ([97] : List Nat).length < 2 ^ 64 ∧
    ValueWF (Value.int 5) ∧
    freshPage.insert [97] (Value.int 5) = .ok pageC8a ∧
    (∀ op ∈ opsC8, OpWF op) ∧
    (∀ op ∈ opsC8, op ≠ Op.del [97]) ∧
    runFrom pageC8a opsC8 = some pageC8b ∧
    pageC8b.get [97] = some (.ok (Value.int 5)) :=
  ⟨by decide, rfl, by decide, by decide, rfl, by decide, by decide, rfl,
    claim_C8 [] (by decide) freshPage rfl [97] (Value.int 5) (by decide) (by decide)
      pageC8a rfl opsC8 (by decide) (by decide) pageC8b rfl⟩

/-- Claim C9: on any reachable page, `delete k` fails with
`KeyDoesNotExist` when `k` is unindexed; otherwise it succeeds, the
stored header decodes with `key_size = k.length` and total entry size
`18 + key_size + value_size`, the flags byte at `offset + 1` becomes
`0x01`, `k` leaves the index, the gap `(offset, entry size)` is appended
to the heap, the cursor is unchanged, and a subsequent `get k` fails
with `KeyDoesNotExist`. -/
theorem claim_C9 (ops : List Op) (hwf : ∀ op ∈ ops, OpWF op)
    (s : MemKvPage) (hrun : run ops = some s) (k : List Nat) :
    (lookupIdx s.index k = none → s.delete k = .error .keyDoesNotExist) ∧
    (∀ o, lookupIdx s.index k = some o →
      ∃ s' hd, s.delete k = .ok s' ∧
        read_header_from_offset s.mmap o = some hd ∧
        hd.key_size = k.length ∧
        hd.get_entry_size = 18 + hd.key_size + hd.value_size ∧
        s'.mmap (o + 1) = 1 ∧
        lookupIdx s'.index k = none ∧
        s'.deleted_entries = s.deleted_entries ++ [⟨o, hd.get_entry_size⟩] ∧
        s'.offset = s.offset ∧
        s'.get k = some (.error .keyDoesNotExist)) := by
  obtain ⟨s0, recs, hrun0, hInv⟩ := run_inv ops hwf
  rw [hrun] at hrun0
  have hs : s = s0 := Option.some.inj hrun0
  subst hs
  refine ⟨fun hlook => delete_none_eval s k hlook, fun o hlook => ?_⟩
  obtain ⟨e, ho, hl, hk⟩ := hInv.idx_rec k o hlook
  have he : e ∈ recs := mem_recOffsets_mem recs 0 o e ho
  have hb := Tiled_mem_bytesAt s.mmap recs 0 s.offset o e hInv.tiled ho
  have hh := read_header_of_bytesAt s.mmap o e hb (hInv.sizes e he)
  have hf : (recHeader e o).flags = 0 := by
    show e.flagByte = 0
    simp [EntryRec.flagByte, hl]
  have hdel := delete_eval s k o (recHeader e o) hlook hh hf
  refine ⟨_, recHeader e o, hdel, hh, ?_, ?_, ?_, ?_, ?_, ?_, ?_⟩
  · show e.key.length = k.length
    rw [hk]
  · show (recHeader e o).get_entry_size = _
    unfold MemKvPageEntryHeader.get_entry_size
    omega
  · have hw := write_header_bytesAt s.mmap { recHeader e o with flags := 1 }
    have h1 := hw 1 (by rw [headerBytes_length]; omega)
    simpa [headerBytes, recHeader] using h1
  · exact lookupIdx_removeIdx_self s.index k
  · rfl
  · rfl
  · exact get_none_eval _ k (lookupIdx_removeIdx_self s.index k)

def pageC9 : MemKvPage := (run [Op.ins [99] (Value.str [104, 105])]).getD freshPage

/-- Witness for C9 at a concrete one-insert trace. -/
theorem claim_C9_witness :
    (∀ op ∈ [Op.ins [99] (Value.str [104, 105])], OpWF op) ∧
    run [Op.ins [99] (Value.str [104, 105])] = some pageC9 ∧
    ((lookupIdx pageC9.index [99] = none →
        pageC9.delete [99] = .error .keyDoesNotExist) ∧
      (∀ o, lookupIdx pageC9.index [99] = some o →
        ∃ s' hd, pageC9.delete [99] = .ok s' ∧
          read_header_from_offset pageC9.mmap o = some hd ∧
          hd.key_size = ([99] : List Nat).length ∧
          hd.get_entry_size = 18 + hd.key_size + hd.value_size ∧
          s'.mmap (o + 1) = 1 ∧
          lookupIdx s'.index [99] = none ∧
          s'.deleted_entries = pageC9.deleted_entries ++ [⟨o, hd.get_entry_size⟩] ∧
          s'.offset = pageC9.offset ∧
          s'.get [99] = some (.error .keyDoesNotExist))) :=
  ⟨by decide, rfl,
    claim_C9 [Op.ins [99] (Value.str [104, 105])] (by decide) pageC9 rfl [99]⟩

/-- Claim C10: along every run of public operations the model never
takes a panic branch (`run` always returns `some`), a further `defrag`
on the reached page also cannot panic, and every gap in the heap points
at a tombstoned entry of exactly the gap's length, so the heap never
holds a stale offset. -/
theorem claim_C10 (ops : List Op) (hwf : ∀ op ∈ ops, OpWF op) :
    (run ops).isSome = true ∧
    ∀ s, run ops = some s →
      s.defrag ≠ none ∧
      ∀ g ∈ s.deleted_entries, ∃ hd,
        read_header_from_offset s.mmap g.offset = some hd ∧
        hd.flags = 1 ∧ hd.get_entry_size = g.length := by
  obtain ⟨s0, recs, hrun0, hInv⟩ := run_inv ops hwf
  refine ⟨by rw [hrun0]; rfl, fun s hrun => ?_⟩
  rw [hrun] at hrun0
  have hs : s = s0 := Option.some.inj hrun0
  subst hs
  constructor
  · obtain ⟨s', hdef, -⟩ := PageInv_defrag s recs hInv
    rw [hdef]
    simp
  · intro g hg
    obtain ⟨e, ho, hdead, hlen⟩ := hInv.heap_rec g hg
    have he : e ∈ recs := mem_recOffsets_mem recs 0 g.offset e ho
    have hb := Tiled_mem_bytesAt s.mmap recs 0 s.offset g.offset e hInv.tiled ho
    refine ⟨recHeader e g.offset,
      read_header_of_bytesAt s.mmap g.offset e hb (hInv.sizes e he), ?_, ?_⟩
    · show e.flagByte = 1
      simp [EntryRec.flagByte, hdead]
    · rw [recHeader_entry_size]
      exact hlen.symm

/-- Witness for C10 at the source test's trace up to the second
defragmentation. -/
theorem claim_C10_witness :
    (∀ op ∈ testDefrag2, OpWF op) ∧
    ((run testDefrag2).isSome = true ∧
      ∀ s, run testDefrag2 = some s →
        s.defrag ≠ none ∧
        ∀ g ∈ s.deleted_entries, ∃ hd,
          read_header_from_offset s.mmap g.offset = some hd ∧
          hd.flags = 1 ∧ hd.get_entry_size = g.length) :=
  ⟨by decide, claim_C10 testDefrag2 (by decide)⟩
